import Mathlib

/-!
Verification of the Unicode property-table generator
(tools/unicode_properties_parse/grapheme_break_property_data_gen.py)
and of the consumer-side lookup routine it emits
(`_Unicode_property_data::_Get_property_for_codepoint`).

The Python data model and pipeline are shallowly embedded below:
codepoints are `Nat`, property names are `String`, fallible encoding
returns `Except`.  The mutating compactor loop is modelled twice: once
functionally (the list of ranges it returns) and once with an explicit
store (to reason about which input objects are written through aliases).
-/

namespace UcdGen

/-- Embedding of the Python dataclass `PropertyRange`.  The parser only ever
produces non-negative codepoint bounds, so the fields are `Nat`. -/
structure PropertyRange where
  lower : Nat
  upper : Nat
  prop : String
deriving DecidableEq, Repr, Inhabited

/-- Embedding of the Python dataclass `PropertyTable`: two parallel arrays,
the range lower bounds and the packed size-and-property words. -/
structure PropertyTable where
  lower_bounds : List Nat
  props_and_range : List Nat
deriving DecidableEq, Repr, Inhabited

/-! ## Line parser

The Python parser matches the anchored regular expression
`(?P<lower>[0-9A-F]\x7b4,5\x7d)(?:\.\.(?P<upper>[0-9A-F]\x7b4,5\x7d))?\s*;\s*(?P<prop>\w+)`
against the start of the line (`re.match`), backtracking through the greedy
quantifiers.  The character classes are modelled on their ASCII fragment
(the UCD data files are ASCII). -/

/-- The character class `[0-9A-F]`: an uppercase hexadecimal digit. -/
def isHexUpper (c : Char) : Bool :=
  c.isDigit || ('A' ≤ c && c ≤ 'F')

/-- The character class `\s` (ASCII fragment): whitespace. -/
def isSpaceChar (c : Char) : Bool :=
  c = ' ' || c = '\t' || c = '\n' || c = '\r' || c = '\x0b' || c = '\x0c'

/-- The character class `\w` (ASCII fragment): letter, digit or underscore. -/
def isWordChar (c : Char) : Bool :=
  c.isAlphanum || c = '_'

/-- Numeric value of one uppercase hexadecimal digit. -/
def hexDigitVal (c : Char) : Nat :=
  if c.isDigit then c.toNat - 48 else c.toNat - 55

/-- `int(s, base=16)` on a string of uppercase hexadecimal digits. -/
def hexVal (cs : List Char) : Nat :=
  cs.foldl (fun v c => v * 16 + hexDigitVal c) 0

/-- Take exactly `n` leading uppercase hexadecimal digits, or fail:
one attempted width of the quantifier `[0-9A-F]\x7b4,5\x7d`. -/
def takeHexDigits (n : Nat) (cs : List Char) : Option (List Char × List Char) :=
  if (cs.take n).length = n && (cs.take n).all isHexUpper then
    some (cs.take n, cs.drop n)
  else
    none

/-- The deterministic tail of the regular expression, `\s*;\s*(?P<prop>\w+)`:
skip whitespace, require a semicolon, skip whitespace, and capture a
non-empty run of word characters (the property name).  Everything after the
captured run is ignored, because `re.match` only anchors the start. -/
def matchSemiProp (cs : List Char) : Option (List Char) :=
  match cs.dropWhile isSpaceChar with
  | c :: rest =>
    if c = ';' then
      if ((rest.dropWhile isSpaceChar).takeWhile isWordChar).isEmpty then none
      else some ((rest.dropWhile isSpaceChar).takeWhile isWordChar)
    else none
  | [] => none

/-- The optional group `(?:\.\.(?P<upper>[0-9A-F]\x7b4,5\x7d))?` followed by the
tail, with the group present.  The inner quantifier is greedy, so width 5 is
attempted before width 4. -/
def matchWithUpper (cs : List Char) : Option (List Char × List Char) :=
  match cs with
  | c1 :: c2 :: rest =>
    if c1 = '.' ∧ c2 = '.' then
      (match takeHexDigits 5 rest with
       | some (up, rest2) => (matchSemiProp rest2).map (fun w => (up, w))
       | none => none)
      <|>
      (match takeHexDigits 4 rest with
       | some (up, rest2) => (matchSemiProp rest2).map (fun w => (up, w))
       | none => none)
    else none
  | _ => none

/-- One attempt of the whole pattern with the width of the `lower` field
fixed to `d1` digits: the optional upper group is tried present first
(greedy `?`), then absent. -/
def matchAt (d1 : Nat) (cs : List Char) : Option (List Char × Option (List Char) × List Char) :=
  match takeHexDigits d1 cs with
  | some (lo, rest1) =>
    (match matchWithUpper rest1 with
     | some (up, w) => some (lo, some up, w)
     | none => none)
    <|>
    ((matchSemiProp rest1).map (fun w => (lo, none, w)))
  | none => none

/-- Full backtracking match of `LINE_REGEX` at the start of the line:
the greedy quantifier on the `lower` field tries 5 digits, then 4.
Returns the captured groups `(lower, upper?, prop)`. -/
def matchLine (cs : List Char) : Option (List Char × Option (List Char) × List Char) :=
  matchAt 5 cs <|> matchAt 4 cs

/-- Embedding of `parse_property_line`: on a regex match, the lower bound is
the hex value of the `lower` group, the upper bound is the hex value of the
`upper` group when present and equal to the lower bound otherwise, and the
property is the captured word. -/
def parse_property_line (inputLine : String) : Option PropertyRange :=
  match matchLine inputLine.toList with
  | some (lo, up?, w) =>
    some { lower := hexVal lo
           upper := match up? with | some up => hexVal up | none => hexVal lo
           prop := String.mk w }
  | none => none

/-! ## Range compactor -/

/-- The loop body state of `compact_property_ranges`: `result` is the output
list built so far.  When the last output range has the same property as the
incoming range `x` and is exactly adjacent to it, the last output range has
its upper bound replaced by `x.upper` (in Python this is an in-place update
of `result[-1]`); otherwise `x` is appended. -/
def compactLoop (result : List PropertyRange) : List PropertyRange → List PropertyRange
  | [] => result
  | x :: xs =>
    match result.getLast? with
    | some lst =>
      if lst.prop = x.prop ∧ lst.upper + 1 = x.lower then
        compactLoop (result.dropLast ++ [{ lst with upper := x.upper }]) xs
      else
        compactLoop (result ++ [x]) xs
    | none => compactLoop (result ++ [x]) xs

/-- Embedding of `compact_property_ranges` (functional view: the value of the
returned list). -/
def compact_property_ranges (input : List PropertyRange) : List PropertyRange :=
  compactLoop [] input

/-- Structurally recursive presentation of the compactor: `compactGo a xs`
is the output produced once `a` is the last (and still extendable) output
range and `xs` is the remaining input.  Proved equal to `compactLoop` below;
all inductions are carried out on this form. -/
def compactGo (a : PropertyRange) : List PropertyRange → List PropertyRange
  | [] => [a]
  | y :: ys =>
    if a.prop = y.prop ∧ a.upper + 1 = y.lower then
      compactGo { a with upper := y.upper } ys
    else
      a :: compactGo y ys

/-! ### The compactor with an explicit store

Python lists hold references: `result.append(x)` aliases the input object,
and `result[-1].upper = x.upper` writes through that alias.  To reason about
what happens to the input list objects, the same loop is modelled over an
explicit store of range values indexed by input position: `store` holds the
current value of every input object and `res` holds the indices appended to
the output. -/

def compactMutLoop (store : List PropertyRange) (res : List Nat) :
    List Nat → List PropertyRange × List Nat
  | [] => (store, res)
  | i :: is =>
    match res.getLast? with
    | some j =>
      if (store.getD j default).prop = (store.getD i default).prop ∧
          (store.getD j default).upper + 1 = (store.getD i default).lower then
        compactMutLoop (store.set j { store.getD j default with upper := (store.getD i default).upper }) res is
      else
        compactMutLoop store (res ++ [i]) is
    | none => compactMutLoop store (res ++ [i]) is

/-- `compact_property_ranges` with the heap made explicit: returns the final
values of the input list objects together with the indices forming the
output list. -/
def compact_property_ranges_mut (input : List PropertyRange) :
    List PropertyRange × List Nat :=
  compactMutLoop input [] (List.range input.length)

/-! ## Table encoder -/

inductive EncodeError where
  /-- The Python `assert size <= 0x0FFF` failed. -/
  | size_too_large
  /-- The Python `props.index(range.prop)` raised (property missing). -/
  | prop_not_found
deriving DecidableEq, Repr

instance {ε α : Type} [DecidableEq ε] [DecidableEq α] : DecidableEq (Except ε α)
  | .error e, .error f =>
    if h : e = f then .isTrue (by rw [h]) else .isFalse (fun hh => h (Except.error.inj hh))
  | .error _, .ok _ => .isFalse (fun hh => Except.noConfusion hh)
  | .ok _, .error _ => .isFalse (fun hh => Except.noConfusion hh)
  | .ok a, .ok b =>
    if h : a = b then .isTrue (by rw [h]) else .isFalse (fun hh => h (Except.ok.inj hh))

/-- One iteration of the loop in `property_ranges_to_table`: compute the
range size, check it fits in 12 bits, look the property up in `props`, and
pack `size | (prop_idx << 12)`.  Returns the pair appended to
`(lower_bounds, props_and_range)`. -/
def encodeRange (props : List String) (r : PropertyRange) : Except EncodeError (Nat × Nat) :=
  let size := (r.upper - r.lower) + 1
  if size ≤ 0x0FFF then
    match props.findIdx? (fun p => p = r.prop) with
    | some prop_idx => .ok (r.lower, size ||| (prop_idx <<< 12))
    | none => .error .prop_not_found
  else
    .error .size_too_large

/-- The loop of `property_ranges_to_table`, processing ranges left to right
and stopping at the first failure. -/
def encodeLoop (props : List String) : List PropertyRange → Except EncodeError (List (Nat × Nat))
  | [] => .ok []
  | r :: rest =>
    match encodeRange props r with
    | .ok p =>
      match encodeLoop props rest with
      | .ok ps => .ok (p :: ps)
      | .error e => .error e
    | .error e => .error e

/-- `sorted(ranges, key=lambda x: x.lower)`: the stable sort on the lower
bound (a stable sort of a list by a key is unique, so any stable sorting
algorithm embeds Python's `sorted`; insertion of each element in front of
the later-listed elements with an equal key is stable). -/
def sortByLower (ranges : List PropertyRange) : List PropertyRange :=
  ranges.insertionSort (fun a b => a.lower ≤ b.lower)

/-- Embedding of `property_ranges_to_table`: sort the ranges by lower bound
and emit the two parallel arrays, failing on the first range whose size does
not fit in 12 bits (or whose property is missing from `props`). -/
def property_ranges_to_table (ranges : List PropertyRange) (props : List String) :
    Except EncodeError PropertyTable :=
  match encodeLoop props (sortByLower ranges) with
  | .ok pairs => .ok { lower_bounds := pairs.map (·.1), props_and_range := pairs.map (·.2) }
  | .error e => .error e

/-- Lexicographic comparison of character lists by code point, the order
Python uses to compare strings: the empty list is least, otherwise compare
the heads and recurse on equal heads.  Returns `true` when the first list
is less than or equal to the second. -/
def charListLe : List Char → List Char → Bool
  | [], _ => true
  | _ :: _, [] => false
  | a :: as, b :: bs => if a < b then true else if b < a then false else charListLe as bs

/-- The lexicographic order on strings (by code point), as Python compares
`str` values. -/
def stringLe (a b : String) : Prop := charListLe a.data b.data = true

instance : DecidableRel stringLe :=
  fun a b => inferInstanceAs (Decidable (charListLe a.data b.data = true))

/-- `sorted(set(x.prop for x in ranges))` as computed in `generate_cpp_data`:
the distinct property names in ascending lexicographic order (a stable
structural sort of the deduplicated property list). -/
def sortedPropertyValues (ranges : List PropertyRange) : List String :=
  ((ranges.map (·.prop)).dedup).insertionSort stringLe

/-- The encoding pipeline of `generate_data_tables` and `generate_cpp_data`
for one table: compact the parsed ranges, collect the sorted property value
set, and build the table. -/
def encodePipeline (ranges : List PropertyRange) :
    Except EncodeError (PropertyTable × List String) :=
  let compacted := compact_property_ranges ranges
  let prop_values := sortedPropertyValues compacted
  match property_ranges_to_table compacted prop_values with
  | .ok t => .ok (t, prop_values)
  | .error e => .error e

/-! ## Consumer-side lookup

Embedding of `_Unicode_property_data::_Get_property_for_codepoint` from the
generated header.  `std::upper_bound` on the sorted `_Lower_bounds` array
yields the index of the first element greater than the code point, which on
a sorted array equals the length of the prefix of elements that are `≤` the
code point.  The returned `Nat` is the numeric value of the returned
`_ValueEnum`: a property id in bits 12-15 of the packed word, or the
sentinel 255 (`_No_value`). -/
def getPropertyForCodepoint (t : PropertyTable) (code_point : Nat) : Nat :=
  let upper_idx := (t.lower_bounds.takeWhile (fun x => x ≤ code_point)).length
  if upper_idx = 0 then
    255
  else
    let lower_bound := t.lower_bounds.getD (upper_idx - 1) 0
    let data := t.props_and_range.getD (upper_idx - 1) 0
    let size := data &&& 0x0FFF
    let prop := (data &&& 0xF000) >>> 12
    if code_point < lower_bound + size then prop else 255

/-! ## Specification-side definitions

These are the comparators the claims are stated against; they are written
from the specification text, not from the code. -/

/-- Whether range `r` covers codepoint `c` (inclusive bounds). -/
def coversB (c : Nat) (r : PropertyRange) : Bool :=
  r.lower ≤ c && c ≤ r.upper

/-- The property value assigned to codepoint `c` by a range list: the
property of the first range covering `c`, if any (for a pairwise disjoint
list this is the unique covering range). -/
def assignedProperty (ranges : List PropertyRange) (c : Nat) : Option String :=
  (ranges.find? (coversB c)).map (·.prop)

/-- The text contributed by the optional `..HEXUPPER` group. -/
def upperGroupChars : Option (List Char) → List Char
  | some up => '.' :: '.' :: up
  | none => []

/-- A hexadecimal field of the line grammar: 4 or 5 uppercase hex digits. -/
def HexField (cs : List Char) : Prop :=
  (cs.length = 4 ∨ cs.length = 5) ∧ cs.all isHexUpper = true

/-- Declarative reading of the specification's line grammar
`HEXLOWER[..HEXUPPER]? ; PROPERTY_NAME`, with the upper group fixed to `u`:
the line decomposes into a 4-5 digit hex lower field, the optional
`..HEXUPPER` text, optional whitespace, a semicolon, optional whitespace, a
non-empty identifier token, and arbitrary ignored trailing text.  This is
the comparator for the parser claims; it is written from the specification
text, not from the code. -/
def MatchesWith (u : Option (List Char)) (cs : List Char) : Prop :=
  ∃ lo w1 w2 p rest,
    cs = lo ++ upperGroupChars u ++ w1 ++ ';' :: (w2 ++ p ++ rest) ∧
    HexField lo ∧
    (∀ up, u = some up → HexField up) ∧
    w1.all isSpaceChar = true ∧
    w2.all isSpaceChar = true ∧
    p ≠ [] ∧
    p.all isWordChar = true

/-- The line is a data line: it matches the grammar with the upper group
either present or absent. -/
def MatchesDataLine (cs : List Char) : Prop :=
  ∃ u, MatchesWith u cs

/-- The line matches the grammar with the `..HEXUPPER` group present. -/
def HasUpperGroup (cs : List Char) : Prop :=
  ∃ up, MatchesWith (some up) cs

/-- The table whose parallel arrays hold, for each range of `cl` in order,
the lower bound and the packed word `size ||| (valueId <<< 12)` with the
value id taken from `pvs`.  On success `property_ranges_to_table` produces
`tableFor pvs` of the sorted range list; the lemmas about the lookup
routine are stated in this form. -/
def tableFor (pvs : List String) (cl : List PropertyRange) : PropertyTable :=
  { lower_bounds := cl.map (·.lower),
    props_and_range := cl.map (fun r => ((r.upper - r.lower) + 1) |||
      ((pvs.findIdx (fun p => p = r.prop)) <<< 12)) }

/-! ## Concrete inputs used by counterexamples and witnesses -/

/-- Seventeen pairwise disjoint, sorted, valid single-codepoint ranges with
seventeen distinct property names. -/
def seventeenRanges : List PropertyRange :=
  (List.range 17).map (fun i =>
    { lower := i, upper := i,
      prop := String.mk [Char.ofNat (65 + i)] })

/-- The seventeen property names of `seventeenRanges` in sorted order. -/
def seventeenProps : List String :=
  (List.range 17).map (fun i => String.mk [Char.ofNat (65 + i)])

/-- The table the encoder actually produces for `seventeenRanges`: the
seventeenth packed entry is `1 ||| (16 <<< 12) = 0x10001`, which does not
fit in 16 bits. -/
def seventeenTable : PropertyTable :=
  { lower_bounds := List.range 17,
    props_and_range := (List.range 17).map (fun i => 1 ||| (i <<< 12)) }

/-! ## Compactor lemmas -/

/-- The merge condition of the compactor: same property and exact
adjacency. -/
def Mergeable (p q : PropertyRange) : Prop :=
  p.prop = q.prop ∧ p.upper + 1 = q.lower

theorem compactLoop_append (xs : List PropertyRange) :
    ∀ (res : List PropertyRange) (a : PropertyRange),
    compactLoop (res ++ [a]) xs = res ++ compactGo a xs := by
  induction xs with
  | nil => intro res a; simp [compactLoop, compactGo]
  | cons y ys ih =>
    intro res a
    simp only [compactLoop, List.getLast?_concat]
    by_cases h : a.prop = y.prop ∧ a.upper + 1 = y.lower
    · rw [if_pos h, List.dropLast_concat, ih, compactGo, if_pos h]
    · rw [if_neg h, ih (res ++ [a]) y, compactGo, if_neg h]
      simp

theorem compact_eq_go (x : PropertyRange) (xs : List PropertyRange) :
    compact_property_ranges (x :: xs) = compactGo x xs := by
  rw [compact_property_ranges, compactLoop]
  exact compactLoop_append xs [] x

theorem compact_nil : compact_property_ranges [] = [] := rfl

theorem compactGo_head (xs : List PropertyRange) :
    ∀ a, ∃ u t, compactGo a xs = { a with upper := u } :: t := by
  induction xs with
  | nil => intro a; exact ⟨a.upper, [], rfl⟩
  | cons y ys ih =>
    intro a
    by_cases h : a.prop = y.prop ∧ a.upper + 1 = y.lower
    · rw [compactGo, if_pos h]
      obtain ⟨u, t, ht⟩ := ih { a with upper := y.upper }
      exact ⟨u, t, ht⟩
    · exact ⟨a.upper, compactGo y ys, by rw [compactGo, if_neg h]⟩

theorem compactGo_chain (xs : List PropertyRange) :
    ∀ a, List.Chain' (fun p q => ¬ Mergeable p q) (compactGo a xs) := by
  induction xs with
  | nil => intro a; simp [compactGo]
  | cons y ys ih =>
    intro a
    by_cases h : a.prop = y.prop ∧ a.upper + 1 = y.lower
    · rw [compactGo, if_pos h]; exact ih _
    · rw [compactGo, if_neg h]
      obtain ⟨u, t, ht⟩ := compactGo_head ys y
      rw [ht]
      refine List.Chain'.cons ?_ (ht ▸ ih y)
      intro hm
      exact h ⟨hm.1, hm.2⟩

theorem compactGo_of_chain (xs : List PropertyRange) :
    ∀ a, List.Chain' (fun p q => ¬ Mergeable p q) (a :: xs) → compactGo a xs = a :: xs := by
  induction xs with
  | nil => intro a _; rfl
  | cons y ys ih =>
    intro a hch
    rw [List.chain'_cons] at hch
    rw [compactGo,
      if_neg (show ¬(a.prop = y.prop ∧ a.upper + 1 = y.lower) from hch.1),
      ih y hch.2]

theorem compactLoop_concat (ys : List PropertyRange) :
    ∀ (xs res : List PropertyRange),
    compactLoop res (xs ++ ys) = compactLoop (compactLoop res xs) ys := by
  intro xs
  induction xs with
  | nil => intro res; rfl
  | cons x xs ih =>
    intro res
    cases hl : res.getLast? with
    | none => simp only [List.cons_append, compactLoop, hl]; exact ih _
    | some lst =>
      by_cases h : lst.prop = x.prop ∧ lst.upper + 1 = x.lower
      · simp only [List.cons_append, compactLoop, hl]
        rw [if_pos h, if_pos h]; exact ih _
      · simp only [List.cons_append, compactLoop, hl]
        rw [if_neg h, if_neg h]; exact ih _

/-- Claim C3: the compactor merge rule.  Processing the input left to right,
an incoming range is merged into the last output range (by replacing that
range's upper bound) exactly when the output is non-empty, the properties
agree and the last output range is exactly adjacent to the incoming one;
otherwise the incoming range is appended.  The concrete boundary cases of
the specification are included: adjacency with equal properties merges, a
gap of one codepoint does not, and a property mismatch does not. -/
theorem compact_property_ranges_merge_rule (l : List PropertyRange) (x : PropertyRange) :
    (match (compact_property_ranges l).getLast? with
     | some lst =>
       if lst.prop = x.prop ∧ lst.upper + 1 = x.lower then
         compact_property_ranges (l ++ [x]) =
           (compact_property_ranges l).dropLast ++ [{ lst with upper := x.upper }]
       else
         compact_property_ranges (l ++ [x]) = compact_property_ranges l ++ [x]
     | none => compact_property_ranges (l ++ [x]) = [x]) ∧
    compact_property_ranges [⟨10, 20, "A"⟩, ⟨21, 30, "A"⟩] = [⟨10, 30, "A"⟩] ∧
    compact_property_ranges [⟨10, 20, "A"⟩, ⟨22, 30, "A"⟩] = [⟨10, 20, "A"⟩, ⟨22, 30, "A"⟩] ∧
    compact_property_ranges [⟨10, 20, "A"⟩, ⟨21, 30, "B"⟩] = [⟨10, 20, "A"⟩, ⟨21, 30, "B"⟩] := by
  refine ⟨?_, by decide, by decide, by decide⟩
  have hstep : compact_property_ranges (l ++ [x]) = compactLoop (compact_property_ranges l) [x] :=
    compactLoop_concat [x] l []
  cases hl : (compact_property_ranges l).getLast? with
  | none =>
    have hnil : compact_property_ranges l = [] := List.getLast?_eq_none_iff.mp hl
    show compact_property_ranges (l ++ [x]) = [x]
    rw [hstep, hnil]
    rfl
  | some lst =>
    show if lst.prop = x.prop ∧ lst.upper + 1 = x.lower then
        compact_property_ranges (l ++ [x]) =
          (compact_property_ranges l).dropLast ++ [{ lst with upper := x.upper }]
      else compact_property_ranges (l ++ [x]) = compact_property_ranges l ++ [x]
    by_cases h : lst.prop = x.prop ∧ lst.upper + 1 = x.lower
    · rw [if_pos h, hstep]
      simp only [compactLoop, hl]
      rw [if_pos h]
    · rw [if_neg h, hstep]
      simp only [compactLoop, hl]
      rw [if_neg h]

/-- Claim C4: compaction is idempotent; feeding the output of
`compact_property_ranges` back into it returns that output unchanged. -/
theorem compact_property_ranges_idempotent (l : List PropertyRange) :
    compact_property_ranges (compact_property_ranges l) = compact_property_ranges l := by
  cases l with
  | nil => rfl
  | cons x xs =>
    rw [compact_eq_go]
    obtain ⟨u, t, ht⟩ := compactGo_head xs x
    have hch := compactGo_chain xs x
    rw [ht] at hch ⊢
    rw [compact_eq_go]
    exact compactGo_of_chain t _ hch

/-! ## Mutation of the compactor input -/

theorem map_set_upper {β : Type} (f : PropertyRange → β)
    (hf : ∀ (r : PropertyRange) (u : Nat), f { r with upper := u } = f r) :
    ∀ (store : List PropertyRange) (j u : Nat),
    (store.set j { store.getD j default with upper := u }).map f = store.map f := by
  intro store
  induction store with
  | nil => intro j u; rfl
  | cons s ss ih =>
    intro j u
    cases j with
    | zero => simp only [List.getD_cons_zero, List.set_cons_zero, List.map_cons, hf]
    | succ j => simp only [List.getD_cons_succ, List.set_cons_succ, List.map_cons, ih]

theorem compactMutLoop_map {β : Type} (f : PropertyRange → β)
    (hf : ∀ (r : PropertyRange) (u : Nat), f { r with upper := u } = f r) :
    ∀ (is : List Nat) (store : List PropertyRange) (res : List Nat),
    ((compactMutLoop store res is).1).map f = store.map f := by
  intro is
  induction is with
  | nil => intro store res; rfl
  | cons i is ih =>
    intro store res
    cases hl : res.getLast? with
    | none => simp only [compactMutLoop, hl]; exact ih _ _
    | some j =>
      by_cases h : (store.getD j default).prop = (store.getD i default).prop ∧
          (store.getD j default).upper + 1 = (store.getD i default).lower
      · simp only [compactMutLoop, hl]
        rw [if_pos h, ih, map_set_upper f hf]
      · simp only [compactMutLoop, hl]
        rw [if_neg h, ih]

/-- Claim C9 counterexample: the compactor does mutate its input.  On the
mergeable input `[10,20]→A, [21,30]→A`, the object holding the first input
range has its upper bound overwritten with 30 (the output aliases it), so
the input list does not hold its original values after the call. -/
theorem compact_property_ranges_mut_mutates :
    (compact_property_ranges_mut [⟨10, 20, "A"⟩, ⟨21, 30, "A"⟩]).1 ≠
      [⟨10, 20, "A"⟩, ⟨21, 30, "A"⟩] := by
  decide

theorem getD_set_ne (store : List PropertyRange) (j k : Nat) (v : PropertyRange)
    (h : j ≠ k) :
    (store.set j v).getD k default = store.getD k default := by
  simp only [List.getD_eq_getElem?_getD, List.getElem?_set_ne h]

theorem getD_set_self (store : List PropertyRange) (j : Nat) (v : PropertyRange)
    (h : j < store.length) :
    (store.set j v).getD j default = v := by
  simp only [List.getD_eq_getElem?_getD, List.getElem?_set_self h, Option.getD_some]

theorem compactLoop_nil_cons (x : PropertyRange) (xs : List PropertyRange) :
    compactLoop [] (x :: xs) = compactLoop [x] xs := rfl

theorem compactLoop_cons_merge (r₀ : List PropertyRange) (lst x : PropertyRange)
    (xs : List PropertyRange)
    (hm : lst.prop = x.prop ∧ lst.upper + 1 = x.lower) :
    compactLoop (r₀ ++ [lst]) (x :: xs) =
      compactLoop (r₀ ++ [{ lst with upper := x.upper }]) xs := by
  simp only [compactLoop, List.getLast?_concat]
  rw [if_pos hm, List.dropLast_concat]

theorem compactLoop_cons_skip (r : List PropertyRange) (lst x : PropertyRange)
    (xs : List PropertyRange) (hl : r.getLast? = some lst)
    (hm : ¬(lst.prop = x.prop ∧ lst.upper + 1 = x.lower)) :
    compactLoop r (x :: xs) = compactLoop (r ++ [x]) xs := by
  simp only [compactLoop, hl]
  rw [if_neg hm]

theorem compactMutLoop_nil_res (store : List PropertyRange) (i : Nat) (is : List Nat) :
    compactMutLoop store [] (i :: is) = compactMutLoop store [i] is := rfl

theorem compactMutLoop_cons_merge (store : List PropertyRange) (res₀ : List Nat)
    (j i : Nat) (is : List Nat)
    (hm : (store.getD j default).prop = (store.getD i default).prop ∧
      (store.getD j default).upper + 1 = (store.getD i default).lower) :
    compactMutLoop store (res₀ ++ [j]) (i :: is) =
      compactMutLoop
        (store.set j { store.getD j default with upper := (store.getD i default).upper })
        (res₀ ++ [j]) is := by
  simp only [compactMutLoop, List.getLast?_concat]
  rw [if_pos hm]

theorem compactMutLoop_cons_skip (store : List PropertyRange) (res₀ : List Nat)
    (j i : Nat) (is : List Nat)
    (hm : ¬((store.getD j default).prop = (store.getD i default).prop ∧
      (store.getD j default).upper + 1 = (store.getD i default).lower)) :
    compactMutLoop store (res₀ ++ [j]) (i :: is) =
      compactMutLoop store ((res₀ ++ [j]) ++ [i]) is := by
  simp only [compactMutLoop, List.getLast?_concat]
  rw [if_neg hm]

/-- Simulation and frame lemma for the explicit-store compactor: as long as
the remaining input indices are strictly increasing, larger than every index
already appended to the output, and in range of the store, (1) reading the
final store at the final output indices yields exactly the value the purely
functional loop computes, (2) a store cell whose index never makes it into
the output index list is never written, and (3) the output index list grows
only by remaining input indices. -/
theorem compactMutLoop_sim :
    ∀ (is : List Nat) (store : List PropertyRange) (res : List Nat),
    List.Pairwise (· < ·) is →
    (∀ j ∈ res, ∀ i ∈ is, j < i) →
    List.Pairwise (· < ·) res →
    (∀ j ∈ res, j < store.length) →
    (∀ i ∈ is, i < store.length) →
    ((compactMutLoop store res is).2.map
        (fun k => (compactMutLoop store res is).1.getD k default) =
      compactLoop (res.map (fun k => store.getD k default))
        (is.map (fun k => store.getD k default))) ∧
    (∀ k, k ∉ (compactMutLoop store res is).2 →
      (compactMutLoop store res is).1.getD k default = store.getD k default) ∧
    (∃ add, (compactMutLoop store res is).2 = res ++ add ∧ ∀ a ∈ add, a ∈ is) := by
  intro is
  induction is with
  | nil =>
    intro store res _ _ _ _ _
    exact ⟨rfl, fun k _ => rfl, [], (List.append_nil res).symm,
      fun a ha => absurd ha (List.not_mem_nil a)⟩
  | cons i is ih =>
    intro store res h0 h1 h2 h3r h3i
    have h0' : List.Pairwise (· < ·) is := h0.of_cons
    have h3i' : ∀ a ∈ is, a < store.length :=
      fun a ha => h3i a (List.mem_cons_of_mem i ha)
    cases hl : res.getLast? with
    | none =>
      have hres : res = [] := List.getLast?_eq_none_iff.mp hl
      subst hres
      have h1' : ∀ j ∈ [i], ∀ a ∈ is, j < a := by
        intro j hj a ha
        rw [List.mem_singleton] at hj
        subst hj
        exact List.rel_of_pairwise_cons h0 ha
      have h3r' : ∀ j ∈ [i], j < store.length := by
        intro j hj
        rw [List.mem_singleton] at hj
        rw [hj]
        exact h3i i (List.mem_cons_self i is)
      obtain ⟨ha, hb, add, hadd, hsub⟩ :=
        ih store [i] h0' h1' (List.pairwise_singleton _ i) h3r' h3i'
      rw [compactMutLoop_nil_res]
      refine ⟨?_, hb, i :: add, ?_, ?_⟩
      · rw [ha]
        simp only [List.map_nil, List.map_cons, compactLoop_nil_cons]
      · rw [hadd, List.singleton_append, List.nil_append]
      · intro a ha2
        cases ha2 with
        | head => exact List.mem_cons_self i is
        | tail _ h => exact List.mem_cons_of_mem i (hsub a h)
    | some j =>
      obtain ⟨res₀, rfl⟩ := List.getLast?_eq_some_iff.mp hl
      have hjres : j ∈ res₀ ++ [j] := List.mem_append_right res₀ (List.mem_singleton_self j)
      have hjlen : j < store.length := h3r j hjres
      have h1'' : ∀ a ∈ res₀ ++ [j], ∀ b ∈ is, a < b :=
        fun a haa b hbb => h1 a haa b (List.mem_cons_of_mem i hbb)
      by_cases hm : (store.getD j default).prop = (store.getD i default).prop ∧
          (store.getD j default).upper + 1 = (store.getD i default).lower
      · rw [compactMutLoop_cons_merge store res₀ j i is hm]
        have h3r' : ∀ a ∈ res₀ ++ [j],
            a < (store.set j { store.getD j default with
              upper := (store.getD i default).upper }).length := by
          intro a haa
          rw [List.length_set]
          exact h3r a haa
        have h3i'' : ∀ a ∈ is,
            a < (store.set j { store.getD j default with
              upper := (store.getD i default).upper }).length := by
          intro a haa
          rw [List.length_set]
          exact h3i' a haa
        obtain ⟨ha, hb, add, hadd, hsub⟩ :=
          ih (store.set j { store.getD j default with
            upper := (store.getD i default).upper }) (res₀ ++ [j]) h0' h1'' h2 h3r' h3i''
        have hne : ∀ a ∈ res₀, a ≠ j := by
          intro a haa
          have := (List.pairwise_append.mp h2).2.2 a haa j (List.mem_singleton_self j)
          omega
        have hmapres : (res₀ ++ [j]).map (fun k =>
              (store.set j { store.getD j default with
                upper := (store.getD i default).upper }).getD k default) =
            res₀.map (fun k => store.getD k default) ++
              [{ store.getD j default with upper := (store.getD i default).upper }] := by
          rw [List.map_append]
          congr 1
          · exact List.map_congr_left (fun a haa =>
              getD_set_ne store j a _ (Ne.symm (hne a haa)))
          · simp only [List.map_cons, List.map_nil]
            rw [getD_set_self store j _ hjlen]
        have hmapis : is.map (fun k =>
              (store.set j { store.getD j default with
                upper := (store.getD i default).upper }).getD k default) =
            is.map (fun k => store.getD k default) :=
          List.map_congr_left (fun a haa =>
            getD_set_ne store j a _ (Nat.ne_of_lt (h1 j hjres a (List.mem_cons_of_mem i haa))))
        refine ⟨?_, ?_, add, hadd, fun a haa => List.mem_cons_of_mem i (hsub a haa)⟩
        · rw [ha, hmapres, hmapis]
          simp only [List.map_append, List.map_cons, List.map_nil]
          rw [compactLoop_cons_merge _ _ _ _ hm]
        · intro k hk
          have hkres : k ∉ res₀ ++ [j] := by
            intro hmem
            apply hk
            rw [hadd]
            exact List.mem_append_left add hmem
          have hkj : j ≠ k := by
            intro hjk
            rw [← hjk] at hkres
            exact hkres hjres
          rw [hb k hk]
          exact getD_set_ne store j k _ hkj
      · rw [compactMutLoop_cons_skip store res₀ j i is hm]
        have h1' : ∀ a ∈ (res₀ ++ [j]) ++ [i], ∀ b ∈ is, a < b := by
          intro a haa b hbb
          rcases List.mem_append.mp haa with h | h
          · exact h1 a h b (List.mem_cons_of_mem i hbb)
          · rw [List.mem_singleton] at h
            subst h
            exact List.rel_of_pairwise_cons h0 hbb
        have h2' : List.Pairwise (· < ·) ((res₀ ++ [j]) ++ [i]) := by
          rw [List.pairwise_append]
          refine ⟨h2, List.pairwise_singleton _ i, ?_⟩
          intro a haa b hbb
          rw [List.mem_singleton] at hbb
          rw [hbb]
          exact h1 a haa i (List.mem_cons_self i is)
        have h3r' : ∀ a ∈ (res₀ ++ [j]) ++ [i], a < store.length := by
          intro a haa
          rcases List.mem_append.mp haa with h | h
          · exact h3r a h
          · rw [List.mem_singleton] at h
            rw [h]
            exact h3i i (List.mem_cons_self i is)
        obtain ⟨ha, hb, add, hadd, hsub⟩ :=
          ih store ((res₀ ++ [j]) ++ [i]) h0' h1' h2' h3r' h3i'
        refine ⟨?_, hb, i :: add, ?_, ?_⟩
        · rw [ha]
          simp only [List.map_append, List.map_cons, List.map_nil]
          rw [compactLoop_cons_skip (res₀.map (fun k => store.getD k default) ++
            [store.getD j default]) (store.getD j default) (store.getD i default)
            (is.map (fun k => store.getD k default)) (List.getLast?_concat _) hm]
        · rw [hadd, List.append_assoc, List.singleton_append]
        · intro a haa
          cases haa with
          | head => exact List.mem_cons_self i is
          | tail _ h => exact List.mem_cons_of_mem i (hsub a h)

theorem map_getD_range (l : List PropertyRange) :
    (List.range l.length).map (fun k => l.getD k default) = l := by
  apply List.ext_getElem
  · simp
  · intro n h1 h2
    simp only [List.getElem_map, List.getElem_range, List.getD_eq_getElem?_getD]
    rw [List.getElem?_eq_getElem h2]
    rfl

/-- Claim C9 (amended): the compactor is not read-only on its input.  In
the explicit-store model, `(compact_property_ranges_mut input).1` holds the
final values of the input list objects and `.2` the input positions the
loop appended to the output.  (1) Reading the final objects at the output
positions yields exactly the functional compactor output, so the returned
list consists of input objects (aliases); (2) every output position is an
input position; (3) an input object whose position was never appended to
the output (in particular every merged-away object) is completely
unchanged; (4) no input object's `lower` or `prop` field ever changes, so
the only writes are to `upper` fields of appended (merged-into) objects. -/
theorem compact_property_ranges_mut_spec (input : List PropertyRange) :
    ((compact_property_ranges_mut input).2.map
        (fun k => (compact_property_ranges_mut input).1.getD k default) =
      compact_property_ranges input) ∧
    (∀ k ∈ (compact_property_ranges_mut input).2, k < input.length) ∧
    (∀ k, k ∉ (compact_property_ranges_mut input).2 →
      (compact_property_ranges_mut input).1.getD k default = input.getD k default) ∧
    ((compact_property_ranges_mut input).1.map (·.lower) = input.map (·.lower)) ∧
    ((compact_property_ranges_mut input).1.map (·.prop) = input.map (·.prop)) := by
  obtain ⟨ha, hb, add, hadd, hsub⟩ :=
    compactMutLoop_sim (List.range input.length) input []
      (List.pairwise_lt_range input.length)
      (fun j hj => absurd hj (List.not_mem_nil j))
      List.Pairwise.nil
      (fun j hj => absurd hj (List.not_mem_nil j))
      (fun i hi => List.mem_range.mp hi)
  simp only [compact_property_ranges_mut]
  refine ⟨?_, ?_, hb,
    compactMutLoop_map (·.lower) (fun _ _ => rfl) _ input [],
    compactMutLoop_map (·.prop) (fun _ _ => rfl) _ input []⟩
  · rw [ha, List.map_nil, map_getD_range]
    rfl
  · intro k hk
    rw [hadd, List.nil_append] at hk
    exact List.mem_range.mp (hsub k hk)

/-- Witness for the C9 theorem at the mergeable input `[10,20]→A, [21,30]→A`:
index 1 is merged away (the output index list is `[0]`), so the second input
object is completely untouched by the call. -/
theorem compact_property_ranges_mut_spec_witness :
    (compact_property_ranges_mut [⟨10, 20, "A"⟩, ⟨21, 30, "A"⟩]).1.getD 1 default =
      ([⟨10, 20, "A"⟩, ⟨21, 30, "A"⟩] : List PropertyRange).getD 1 default :=
  (compact_property_ranges_mut_spec [⟨10, 20, "A"⟩, ⟨21, 30, "A"⟩]).2.2.1 1 (by decide)

/-! ## Parser lemmas -/

theorem space_char_cases {c : Char} (h : isSpaceChar c = true) :
    c = ' ' ∨ c = '\t' ∨ c = '\n' ∨ c = '\r' ∨ c = '\x0b' ∨ c = '\x0c' := by
  have := h
  rw [isSpaceChar] at this
  simp only [Bool.or_eq_true, decide_eq_true_eq] at this
  tauto

theorem space_not_word {c : Char} (h : isSpaceChar c = true) : isWordChar c = false := by
  rcases space_char_cases h with rfl | rfl | rfl | rfl | rfl | rfl <;> decide

theorem space_not_hex {c : Char} (h : isSpaceChar c = true) : isHexUpper c = false := by
  rcases space_char_cases h with rfl | rfl | rfl | rfl | rfl | rfl <;> decide

theorem word_not_space {c : Char} (h : isWordChar c = true) : isSpaceChar c = false := by
  cases hs : isSpaceChar c
  · rfl
  · rw [space_not_word hs] at h
    cases h

theorem hexDigitVal_lt {c : Char} (h : isHexUpper c = true) : hexDigitVal c < 16 := by
  rw [isHexUpper, Bool.or_eq_true, Bool.and_eq_true] at h
  unfold hexDigitVal
  cases hd : c.isDigit with
  | true =>
    rw [if_pos rfl]
    have h57 : c.val ≤ 57 := by
      have := hd
      rw [Char.isDigit, Bool.and_eq_true, decide_eq_true_eq, decide_eq_true_eq] at this
      exact this.2
    have : c.toNat ≤ 57 := UInt32.toNat_le_of_le (by decide) h57
    omega
  | false =>
    rw [if_neg (by simp)]
    rcases h with h | h
    · rw [hd] at h; cases h
    · have h70 : c.val ≤ 70 := by
        have := h.2
        rw [decide_eq_true_eq, Char.le_def] at this
        exact this
      have : c.toNat ≤ 70 := UInt32.toNat_le_of_le (by decide) h70
      omega

theorem hexVal_foldl_lt :
    ∀ (cs : List Char) (v : Nat), cs.all isHexUpper = true →
    cs.foldl (fun v c => v * 16 + hexDigitVal c) v < (v + 1) * 16 ^ cs.length := by
  intro cs
  induction cs with
  | nil =>
    intro v _
    rw [List.foldl_nil, List.length_nil, Nat.pow_zero, Nat.mul_one]
    exact Nat.lt_succ_self v
  | cons c cs ih =>
    intro v h
    rw [List.all_cons, Bool.and_eq_true] at h
    have hd := hexDigitVal_lt h.1
    calc cs.foldl (fun v c => v * 16 + hexDigitVal c) (v * 16 + hexDigitVal c)
        < (v * 16 + hexDigitVal c + 1) * 16 ^ cs.length := ih _ h.2
      _ ≤ ((v + 1) * 16) * 16 ^ cs.length := Nat.mul_le_mul_right _ (by omega)
      _ = (v + 1) * 16 ^ (c :: cs).length := by rw [List.length_cons]; ring

theorem hexVal_lt (cs : List Char) (h : cs.all isHexUpper = true) :
    hexVal cs < 16 ^ cs.length := by
  have h1 := hexVal_foldl_lt cs 0 h
  rw [Nat.zero_add, Nat.one_mul] at h1
  exact h1

theorem hexVal_lt_of_hexField {cs : List Char} (h : HexField cs) : hexVal cs < 0x100000 := by
  have hb := hexVal_lt cs h.2
  rcases h.1 with h4 | h5
  · rw [h4] at hb; omega
  · rw [h5] at hb
    exact hb

theorem takeHexDigits_eq_some {n : Nat} {cs lo rest : List Char} :
    takeHexDigits n cs = some (lo, rest) ↔
      cs = lo ++ rest ∧ lo.length = n ∧ lo.all isHexUpper = true := by
  unfold takeHexDigits
  constructor
  · intro h
    split_ifs at h with hc
    rw [Bool.and_eq_true, decide_eq_true_eq] at hc
    simp only [Option.some.injEq, Prod.mk.injEq] at h
    obtain ⟨h1, h2⟩ := h
    subst h1; subst h2
    exact ⟨(List.take_append_drop n cs).symm, hc.1, hc.2⟩
  · rintro ⟨rfl, hlen, hall⟩
    rw [List.take_left' hlen, List.drop_left' hlen]
    rw [if_pos (by rw [Bool.and_eq_true, decide_eq_true_eq]; exact ⟨hlen, hall⟩)]

theorem takeHexDigits_self {lo rest : List Char} (hall : lo.all isHexUpper = true) :
    takeHexDigits lo.length (lo ++ rest) = some (lo, rest) :=
  takeHexDigits_eq_some.mpr ⟨rfl, rfl, hall⟩

theorem matchSemiProp_sound {cs w : List Char} (h : matchSemiProp cs = some w) :
    ∃ w1 w2 rest, cs = w1 ++ ';' :: (w2 ++ (w ++ rest)) ∧
      w1.all isSpaceChar = true ∧ w2.all isSpaceChar = true ∧ w ≠ [] ∧
      w.all isWordChar = true := by
  cases hd : cs.dropWhile isSpaceChar with
  | nil => rw [matchSemiProp, hd] at h; cases h
  | cons c rest0 =>
    simp only [matchSemiProp, hd] at h
    split_ifs at h with hc hw
    subst hc
    rw [Option.some.injEq] at h
    refine ⟨cs.takeWhile isSpaceChar, rest0.takeWhile isSpaceChar,
      (rest0.dropWhile isSpaceChar).dropWhile isWordChar, ?_, List.all_takeWhile,
      List.all_takeWhile, ?_, ?_⟩
    · conv_lhs => rw [← List.takeWhile_append_dropWhile isSpaceChar cs]
      rw [hd]
      congr 2
      rw [← h]
      conv_lhs => rw [← List.takeWhile_append_dropWhile isSpaceChar rest0]
      congr 1
      exact (List.takeWhile_append_dropWhile isWordChar _).symm
    · rw [← h]
      intro hnil
      exact hw (by rw [hnil]; rfl)
    · rw [← h]
      exact List.all_takeWhile

theorem matchSemiProp_complete (rest : List Char) {w1 w2 p : List Char}
    (h1 : w1.all isSpaceChar = true) (h2 : w2.all isSpaceChar = true)
    (hp : p ≠ []) (hw : p.all isWordChar = true) :
    ∃ w, matchSemiProp (w1 ++ ';' :: (w2 ++ (p ++ rest))) = some w := by
  obtain ⟨c, p', rfl⟩ : ∃ c p', p = c :: p' := by
    cases p with
    | nil => exact absurd rfl hp
    | cons c p' => exact ⟨c, p', rfl⟩
  have hcw : isWordChar c = true := by
    rw [List.all_cons, Bool.and_eq_true] at hw; exact hw.1
  have hd1 : (w1 ++ ';' :: (w2 ++ (c :: p' ++ rest))).dropWhile isSpaceChar
      = ';' :: (w2 ++ (c :: p' ++ rest)) := by
    rw [List.dropWhile_append_of_pos (fun a ha => List.all_eq_true.mp h1 a ha),
      List.dropWhile_cons_of_neg (by decide)]
  have hd2 : (w2 ++ (c :: p' ++ rest)).dropWhile isSpaceChar = c :: (p' ++ rest) := by
    rw [List.cons_append]
    rw [List.dropWhile_append_of_pos (fun a ha => List.all_eq_true.mp h2 a ha),
      List.dropWhile_cons_of_neg (by rw [word_not_space hcw]; simp)]
  refine ⟨c :: (p' ++ rest).takeWhile isWordChar, ?_⟩
  simp only [matchSemiProp, hd1]
  rw [if_pos trivial, hd2, List.takeWhile_cons_of_pos hcw]
  rw [if_neg (by simp)]

theorem hexBranch_sound {n : Nat} {rest up w : List Char}
    (h : (match takeHexDigits n rest with
          | some (up, rest2) => (matchSemiProp rest2).map (fun w => (up, w))
          | none => none) = some (up, w)) :
    ∃ w1 w2 r, rest = up ++ (w1 ++ ';' :: (w2 ++ (w ++ r))) ∧ up.length = n ∧
      up.all isHexUpper = true ∧ w1.all isSpaceChar = true ∧ w2.all isSpaceChar = true ∧
      w ≠ [] ∧ w.all isWordChar = true := by
  cases ht : takeHexDigits n rest with
  | none => rw [ht] at h; cases h
  | some pr =>
    obtain ⟨u0, rest2⟩ := pr
    rw [ht] at h
    rw [show (match some (u0, rest2) with
        | some (up, rest2) => (matchSemiProp rest2).map (fun w => (up, w))
        | none => (none : Option (List Char × List Char))) =
        (matchSemiProp rest2).map (fun w => (u0, w)) from rfl] at h
    rw [Option.map_eq_some'] at h
    obtain ⟨w0, hm, hv⟩ := h
    rw [Prod.mk.injEq] at hv
    obtain ⟨rfl, rfl⟩ := hv
    obtain ⟨hrest, hlen, hhex⟩ := takeHexDigits_eq_some.mp ht
    obtain ⟨w1, w2, r, hrest2, h1, h2, hne, hall⟩ := matchSemiProp_sound hm
    exact ⟨w1, w2, r, by rw [hrest, hrest2], hlen, hhex, h1, h2, hne, hall⟩

theorem hexBranch_complete {rest up w1 w2 p r : List Char}
    (hhex : up.all isHexUpper = true)
    (hrest : rest = up ++ (w1 ++ ';' :: (w2 ++ (p ++ r))))
    (h1 : w1.all isSpaceChar = true) (h2 : w2.all isSpaceChar = true)
    (hp : p ≠ []) (hw : p.all isWordChar = true) :
    ∃ w, (match takeHexDigits up.length rest with
          | some (up, rest2) => (matchSemiProp rest2).map (fun w => (up, w))
          | none => none) = some (up, w) := by
  subst hrest
  rw [takeHexDigits_self hhex]
  obtain ⟨w, hw'⟩ := matchSemiProp_complete r h1 h2 hp hw
  exact ⟨w, by rw [show (match some (up, w1 ++ ';' :: (w2 ++ (p ++ r))) with
      | some (up, rest2) => (matchSemiProp rest2).map (fun w => (up, w))
      | none => (none : Option (List Char × List Char))) =
      (matchSemiProp (w1 ++ ';' :: (w2 ++ (p ++ r)))).map (fun w => (up, w)) from rfl, hw']; rfl⟩

theorem hexBranch_none_of_shorter {rest up w1 w2 p r : List Char} {n : Nat}
    (hup : up.length < n) (hrest : rest = up ++ (w1 ++ ';' :: (w2 ++ (p ++ r))))
    (h1 : w1.all isSpaceChar = true) :
    (match takeHexDigits n rest with
     | some (up, rest2) => (matchSemiProp rest2).map (fun w => (up, w))
     | none => none) = (none : Option (List Char × List Char)) := by
  cases ht : takeHexDigits n rest with
  | none => rfl
  | some pr =>
    exfalso
    obtain ⟨u5, r5⟩ := pr
    obtain ⟨heq, hlen5, hhex5⟩ := takeHexDigits_eq_some.mp ht
    obtain ⟨c, T2, hT, hc⟩ :
        ∃ c T2, w1 ++ ';' :: (w2 ++ (p ++ r)) = c :: T2 ∧ isHexUpper c = false := by
      cases w1 with
      | nil => exact ⟨';', _, rfl, by decide⟩
      | cons s w1s =>
        rw [List.all_cons, Bool.and_eq_true] at h1
        exact ⟨s, _, rfl, space_not_hex h1.1⟩
    rw [hrest, hT, List.append_cons up c T2] at heq
    have hcmem : c ∈ u5 := by
      have e1 : ((up ++ [c]) ++ T2)[up.length]? = (u5 ++ r5)[up.length]? := by rw [heq]
      rw [List.getElem?_append_left (by rw [List.length_append, List.length_singleton]; omega),
        List.getElem?_append_right (Nat.le_refl _), Nat.sub_self] at e1
      rw [List.getElem?_append_left (by rw [hlen5]; omega)] at e1
      have e2 : u5[up.length]? = some c := by
        rw [← e1]; rfl
      obtain ⟨hlt, hg⟩ := List.getElem?_eq_some.mp e2
      exact hg ▸ List.getElem_mem hlt
    have := List.all_eq_true.mp hhex5 c hcmem
    rw [hc] at this
    cases this

theorem matchWithUpper_sound {cs up w : List Char}
    (h : matchWithUpper cs = some (up, w)) :
    ∃ w1 w2 r, cs = '.' :: '.' :: (up ++ (w1 ++ ';' :: (w2 ++ (w ++ r)))) ∧
      (up.length = 4 ∨ up.length = 5) ∧ up.all isHexUpper = true ∧
      w1.all isSpaceChar = true ∧ w2.all isSpaceChar = true ∧ w ≠ [] ∧
      w.all isWordChar = true := by
  cases cs with
  | nil => exact Option.noConfusion h
  | cons c1 cs1 =>
    cases cs1 with
    | nil => exact Option.noConfusion h
    | cons c2 rest =>
      rw [matchWithUpper] at h
      split_ifs at h with hd
      obtain ⟨rfl, rfl⟩ := hd
      cases hA : (match takeHexDigits 5 rest with
          | some (up, rest2) => (matchSemiProp rest2).map (fun w => (up, w))
          | none => (none : Option (List Char × List Char))) with
      | some v =>
        rw [hA, Option.some_orElse] at h
        rw [Option.some.injEq] at h
        subst h
        obtain ⟨w1, w2, r, hrest, hlen, hhex, h1, h2, hne, hall⟩ := hexBranch_sound hA
        exact ⟨w1, w2, r, by rw [hrest], Or.inr hlen, hhex, h1, h2, hne, hall⟩
      | none =>
        rw [hA, Option.none_orElse] at h
        obtain ⟨w1, w2, r, hrest, hlen, hhex, h1, h2, hne, hall⟩ := hexBranch_sound h
        exact ⟨w1, w2, r, by rw [hrest], Or.inl hlen, hhex, h1, h2, hne, hall⟩

theorem matchWithUpper_complete (r : List Char) {up w1 w2 p : List Char}
    (hup : up.length = 4 ∨ up.length = 5) (hhex : up.all isHexUpper = true)
    (h1 : w1.all isSpaceChar = true) (h2 : w2.all isSpaceChar = true)
    (hp : p ≠ []) (hw : p.all isWordChar = true) :
    ∃ w, matchWithUpper ('.' :: '.' :: (up ++ (w1 ++ ';' :: (w2 ++ (p ++ r))))) = some (up, w) := by
  rw [matchWithUpper, if_pos ⟨rfl, rfl⟩]
  rcases hup with hup | hup
  · rw [hexBranch_none_of_shorter (by omega) rfl h1, Option.none_orElse]
    obtain ⟨w, hw'⟩ := hexBranch_complete hhex rfl h1 h2 hp hw
    rw [hup] at hw'
    exact ⟨w, hw'⟩
  · obtain ⟨w, hw'⟩ := hexBranch_complete hhex rfl h1 h2 hp hw
    rw [hup] at hw'
    refine ⟨w, ?_⟩
    rw [hw', Option.some_orElse]

theorem matchAt_sound {d1 : Nat} (hd : d1 = 4 ∨ d1 = 5) {cs lo : List Char}
    {u : Option (List Char)} {w : List Char}
    (h : matchAt d1 cs = some (lo, u, w)) :
    HexField lo ∧ MatchesWith u cs := by
  cases ht : takeHexDigits d1 cs with
  | none => rw [matchAt, ht] at h; cases h
  | some pr =>
    obtain ⟨lo0, rest1⟩ := pr
    simp only [matchAt, ht] at h
    obtain ⟨hcs, hlen, hhex⟩ := takeHexDigits_eq_some.mp ht
    have hflo : HexField lo0 := by
      refine ⟨?_, hhex⟩
      rcases hd with rfl | rfl
      · exact Or.inl hlen
      · exact Or.inr hlen
    cases hA : matchWithUpper rest1 with
    | some upw =>
      obtain ⟨up0, w0⟩ := upw
      simp only [hA, Option.some_orElse] at h
      rw [Option.some.injEq, Prod.mk.injEq] at h
      obtain ⟨rfl, h2'⟩ := h
      rw [Prod.mk.injEq] at h2'
      obtain ⟨rfl, rfl⟩ := h2'
      obtain ⟨w1, w2, r, hrest1, hulen, huhex, hw1, hw2, hne, hall⟩ := matchWithUpper_sound hA
      refine ⟨hflo, lo0, w1, w2, w0, r, ?_, hflo, ?_, hw1, hw2, hne, hall⟩
      · rw [hcs, hrest1]
        simp [upperGroupChars, List.append_assoc]
      · intro up hup
        rw [Option.some.injEq] at hup
        subst hup
        exact ⟨hulen, huhex⟩
    | none =>
      simp only [hA, Option.none_orElse, Option.map_eq_some'] at h
      obtain ⟨w0, hm, hv⟩ := h
      rw [Prod.mk.injEq] at hv
      obtain ⟨rfl, hv2⟩ := hv
      rw [Prod.mk.injEq] at hv2
      obtain ⟨rfl, rfl⟩ := hv2
      obtain ⟨w1, w2, r, hrest1, hw1s, hw2s, hne, hall⟩ := matchSemiProp_sound hm
      refine ⟨hflo, lo0, w1, w2, w0, r, ?_, hflo, ?_, hw1s, hw2s, hne, hall⟩
      · rw [hcs, hrest1]
        simp [upperGroupChars, List.append_assoc]
      · intro up hup
        exact Option.noConfusion hup

theorem matchAt_complete {u : Option (List Char)} {lo w1 w2 p rest : List Char}
    (hlo : lo.all isHexUpper = true)
    (hu : ∀ up, u = some up → HexField up)
    (h1 : w1.all isSpaceChar = true) (h2 : w2.all isSpaceChar = true)
    (hp : p ≠ []) (hw : p.all isWordChar = true) :
    ∃ v, matchAt lo.length (lo ++ upperGroupChars u ++ w1 ++ ';' :: (w2 ++ p ++ rest)) = some v := by
  have hshape : lo ++ upperGroupChars u ++ w1 ++ ';' :: (w2 ++ p ++ rest)
      = lo ++ (upperGroupChars u ++ (w1 ++ ';' :: (w2 ++ (p ++ rest)))) := by
    simp [List.append_assoc]
  rw [hshape]
  simp only [matchAt, takeHexDigits_self hlo]
  cases u with
  | some up =>
    have hug : upperGroupChars (some up) ++ (w1 ++ ';' :: (w2 ++ (p ++ rest)))
        = '.' :: '.' :: (up ++ (w1 ++ ';' :: (w2 ++ (p ++ rest)))) := by
      simp [upperGroupChars]
    rw [hug]
    obtain ⟨w, hw'⟩ :=
      matchWithUpper_complete rest (hu up rfl).1 (hu up rfl).2 h1 h2 hp hw
    rw [hw']
    exact ⟨(lo, some up, w), rfl⟩
  | none =>
    have hug : upperGroupChars none ++ (w1 ++ ';' :: (w2 ++ (p ++ rest)))
        = w1 ++ ';' :: (w2 ++ (p ++ rest)) := by
      simp [upperGroupChars]
    rw [hug]
    cases hA : matchWithUpper (w1 ++ ';' :: (w2 ++ (p ++ rest))) with
    | some v =>
      obtain ⟨up0, w0⟩ := v
      exact ⟨(lo, some up0, w0), rfl⟩
    | none =>
      obtain ⟨w, hw'⟩ := matchSemiProp_complete rest h1 h2 hp hw
      rw [hw']
      exact ⟨(lo, none, w), rfl⟩

theorem matchLine_sound {cs lo : List Char} {u : Option (List Char)} {w : List Char}
    (h : matchLine cs = some (lo, u, w)) :
    HexField lo ∧ MatchesWith u cs := by
  rw [matchLine] at h
  cases hA : matchAt 5 cs with
  | some v =>
    rw [hA, Option.some_orElse, Option.some.injEq] at h
    subst h
    exact matchAt_sound (Or.inr rfl) hA
  | none =>
    rw [hA, Option.none_orElse] at h
    exact matchAt_sound (Or.inl rfl) h

theorem matchLine_complete {cs : List Char} (h : MatchesDataLine cs) :
    ∃ v, matchLine cs = some v := by
  obtain ⟨u, lo, w1, w2, p, rest, hdec, hlo, hu, h1, h2, hp, hw⟩ := h
  subst hdec
  rw [matchLine]
  cases hA : matchAt 5 (lo ++ upperGroupChars u ++ w1 ++ ';' :: (w2 ++ p ++ rest)) with
  | some v =>
    rw [Option.some_orElse]
    exact ⟨v, rfl⟩
  | none =>
    rw [Option.none_orElse]
    rcases hlo.1 with h4 | h5
    · obtain ⟨v, hv⟩ := matchAt_complete hlo.2 hu h1 h2 hp hw
      rw [h4] at hv
      exact ⟨v, hv⟩
    · obtain ⟨v, hv⟩ := matchAt_complete hlo.2 hu h1 h2 hp hw
      rw [h5] at hv
      rw [hv] at hA
      cases hA

theorem hasUpperGroup_mem_dot {cs : List Char} (h : HasUpperGroup cs) : '.' ∈ cs := by
  obtain ⟨up, lo, w1, w2, p, rest, hdec, _, _, _, _, _, _⟩ := h
  rw [hdec]
  simp [upperGroupChars]

/-- Claim C7: the line parser contract.  `parse_property_line` returns a
range exactly when the line matches the grammar
`HEXLOWER[..HEXUPPER]? ; PROPERTY_NAME` (hex fields of 4-5 uppercase
hexadecimal digits, identifier property token, arbitrary trailing text
ignored), and lines that do not match are skipped (no range returned).
When the `..HEXUPPER` group is absent from every decomposition, the
returned range has `upper = lower`. -/
theorem parse_property_line_contract (s : String) :
    ((∃ r, parse_property_line s = some r) ↔ MatchesDataLine s.toList) ∧
    (∀ r, parse_property_line s = some r → ¬ HasUpperGroup s.toList → r.upper = r.lower) := by
  constructor
  · constructor
    · rintro ⟨r, hr⟩
      rw [parse_property_line] at hr
      cases hm : matchLine s.toList with
      | none => rw [hm] at hr; exact Option.noConfusion hr
      | some v =>
        obtain ⟨lo, u, w⟩ := v
        exact ⟨u, (matchLine_sound hm).2⟩
    · intro h
      obtain ⟨v, hv⟩ := matchLine_complete h
      obtain ⟨lo, u, w⟩ := v
      cases u with
      | some up =>
        refine ⟨{ lower := hexVal lo, upper := hexVal up, prop := String.mk w }, ?_⟩
        rw [parse_property_line, hv]
      | none =>
        refine ⟨{ lower := hexVal lo, upper := hexVal lo, prop := String.mk w }, ?_⟩
        rw [parse_property_line, hv]
  · intro r hr hnu
    rw [parse_property_line] at hr
    cases hm : matchLine s.toList with
    | none => rw [hm] at hr; exact Option.noConfusion hr
    | some v =>
      obtain ⟨lo, u, w⟩ := v
      rw [hm] at hr
      cases u with
      | some up => exact absurd ⟨up, (matchLine_sound hm).2⟩ hnu
      | none =>
        rw [← Option.some.inj hr]

/-- Claim C7 witness: the line `0041 ; X` is recognised as a data line, and
since it has no `..HEXUPPER` group the parsed range is a single
codepoint. -/
theorem parse_property_line_contract_witness :
    MatchesDataLine ("0041 ; X".toList) ∧
    ({ lower := 65, upper := 65, prop := "X" } : PropertyRange).upper =
      ({ lower := 65, upper := 65, prop := "X" } : PropertyRange).lower := by
  constructor
  · exact (parse_property_line_contract "0041 ; X").1.mp
      ⟨{ lower := 65, upper := 65, prop := "X" }, by decide⟩
  · exact (parse_property_line_contract "0041 ; X").2
      { lower := 65, upper := 65, prop := "X" } (by decide)
      (fun h => absurd (hasUpperGroup_mem_dot h) (by decide))

/-- Claim C8 counterexample: on the line `0050..0041 ; X` the parser
succeeds and returns a range with `lower = 80` and `upper = 65`, violating
the claimed invariant `lower ≤ upper`. -/
theorem parse_property_line_lower_gt_upper :
    parse_property_line "0050..0041 ; X" =
      some { lower := 80, upper := 65, prop := "X" } ∧
    ¬ ((80 : Nat) ≤ 65) :=
  ⟨by decide, by decide⟩

/-- Claim C8 (amended): every range the parser returns has
`lower ≤ 0x10FFFF` and `upper ≤ 0x10FFFF`; the invariant `lower ≤ upper`
is guaranteed only when the `..HEXUPPER` group is absent (the parser does
not validate an explicit upper bound against the lower bound). -/
theorem parse_property_line_invariant (s : String) (r : PropertyRange)
    (h : parse_property_line s = some r) :
    r.lower ≤ 0x10FFFF ∧ r.upper ≤ 0x10FFFF ∧
    (¬ HasUpperGroup s.toList → r.lower ≤ r.upper) := by
  rw [parse_property_line] at h
  cases hm : matchLine s.toList with
  | none => rw [hm] at h; exact Option.noConfusion h
  | some v =>
    obtain ⟨lo, u, w⟩ := v
    rw [hm] at h
    obtain ⟨hflo, hmw⟩ := matchLine_sound hm
    have hlo := hexVal_lt_of_hexField hflo
    cases u with
    | none =>
      rw [← Option.some.inj h]
      exact ⟨show hexVal lo ≤ 0x10FFFF by omega, show hexVal lo ≤ 0x10FFFF by omega,
        fun _ => Nat.le_refl _⟩
    | some up =>
      have hfup : HexField up := by
        obtain ⟨lo2, w1, w2, p, rest, hdec, hflo2, hu, _⟩ := hmw
        exact hu up rfl
      have hup := hexVal_lt_of_hexField hfup
      rw [← Option.some.inj h]
      exact ⟨show hexVal lo ≤ 0x10FFFF by omega, show hexVal up ≤ 0x10FFFF by omega,
        fun hn => absurd ⟨up, hmw⟩ hn⟩

/-- Claim C8 witness: the bounds hold on the parse of `0041 ; X`. -/
theorem parse_property_line_invariant_witness :
    ({ lower := 65, upper := 65, prop := "X" } : PropertyRange).lower ≤ 0x10FFFF ∧
    ({ lower := 65, upper := 65, prop := "X" } : PropertyRange).upper ≤ 0x10FFFF ∧
    (¬ HasUpperGroup ("0041 ; X".toList) →
      ({ lower := 65, upper := 65, prop := "X" } : PropertyRange).lower ≤
        ({ lower := 65, upper := 65, prop := "X" } : PropertyRange).upper) :=
  parse_property_line_invariant "0041 ; X" { lower := 65, upper := 65, prop := "X" } (by decide)

/-- Claim C10: both bounds of every parsed range are below 0x100000,
because each hex field of the line grammar has at most five uppercase
hexadecimal digits; a data line needing six digits (such as 10FFFF) or
written in lowercase hex is silently skipped. -/
theorem parse_property_line_five_digit_bound :
    (∀ (s : String) (r : PropertyRange), parse_property_line s = some r →
        r.lower < 0x100000 ∧ r.upper < 0x100000) ∧
    parse_property_line "10FFFF ; X" = none ∧
    parse_property_line "0041..005a ; X" = none := by
  refine ⟨?_, by decide, by decide⟩
  intro s r h
  rw [parse_property_line] at h
  cases hm : matchLine s.toList with
  | none => rw [hm] at h; exact Option.noConfusion h
  | some v =>
    obtain ⟨lo, u, w⟩ := v
    rw [hm] at h
    obtain ⟨hflo, hmw⟩ := matchLine_sound hm
    cases u with
    | none =>
      rw [← Option.some.inj h]
      have := hexVal_lt_of_hexField hflo
      exact ⟨this, this⟩
    | some up =>
      have hfup : HexField up := by
        obtain ⟨lo2, w1, w2, p, rest, hdec, hflo2, hu, _⟩ := hmw
        exact hu up rfl
      rw [← Option.some.inj h]
      exact ⟨hexVal_lt_of_hexField hflo, hexVal_lt_of_hexField hfup⟩

/-- Claim C10 witness: the bound evaluated on the parse of `0042 ; Y`. -/
theorem parse_property_line_five_digit_bound_witness :
    ({ lower := 66, upper := 66, prop := "Y" } : PropertyRange).lower < 0x100000 ∧
    ({ lower := 66, upper := 66, prop := "Y" } : PropertyRange).upper < 0x100000 :=
  parse_property_line_five_digit_bound.1 "0042 ; Y"
    { lower := 66, upper := 66, prop := "Y" } (by decide)

/-! ## Encoder lemmas -/

theorem encodeLoop_ok {props : List String} :
    ∀ {l : List PropertyRange} {pairs : List (Nat × Nat)},
    encodeLoop props l = .ok pairs →
    pairs = l.map (fun r => (r.lower,
      ((r.upper - r.lower) + 1) ||| ((props.findIdx (fun p => p = r.prop)) <<< 12))) ∧
    ∀ r ∈ l, (r.upper - r.lower) + 1 ≤ 0x0FFF ∧
      props.findIdx? (fun p => p = r.prop) = some (props.findIdx (fun p => p = r.prop)) := by
  intro l
  induction l with
  | nil =>
    intro pairs h
    rw [encodeLoop] at h
    rw [← Except.ok.inj h]
    exact ⟨rfl, fun r hr => absurd hr (List.not_mem_nil r)⟩
  | cons r rest ih =>
    intro pairs h
    cases he : encodeRange props r with
    | error e => rw [encodeLoop, he] at h; exact Except.noConfusion h
    | ok pr =>
      cases ht : encodeLoop props rest with
      | error e =>
        simp only [encodeLoop, he, ht] at h
        exact Except.noConfusion h
      | ok ps =>
        simp only [encodeLoop, he, ht] at h
        have hP := Except.ok.inj h
        obtain ⟨hmap, hall⟩ := ih ht
        simp only [encodeRange] at he
        split_ifs at he with hsize
        · cases hf : props.findIdx? (fun p => p = r.prop) with
          | none => rw [hf] at he; exact Except.noConfusion he
          | some i =>
            rw [hf] at he
            have hpr := Except.ok.inj he
            have hidx := (List.findIdx?_eq_some_iff_findIdx_eq.mp hf).2
            constructor
            · rw [← hP, List.map_cons, ← hmap, ← hpr, hidx]
            · intro x hx
              rcases List.mem_cons.mp hx with rfl | hx2
              · exact ⟨hsize, by rw [hf, hidx]⟩
              · exact hall x hx2

theorem property_ranges_to_table_ok {ranges : List PropertyRange} {props : List String}
    {t : PropertyTable} (h : property_ranges_to_table ranges props = .ok t) :
    t.lower_bounds = (sortByLower ranges).map (·.lower) ∧
    t.props_and_range = (sortByLower ranges).map (fun r =>
      ((r.upper - r.lower) + 1) ||| ((props.findIdx (fun p => p = r.prop)) <<< 12)) ∧
    (∀ r ∈ sortByLower ranges, (r.upper - r.lower) + 1 ≤ 0x0FFF ∧
      props.findIdx? (fun p => p = r.prop) = some (props.findIdx (fun p => p = r.prop))) := by
  cases hl : encodeLoop props (sortByLower ranges) with
  | error e => rw [property_ranges_to_table, hl] at h; exact Except.noConfusion h
  | ok pairs =>
    simp only [property_ranges_to_table, hl] at h
    have h2 := Except.ok.inj h
    obtain ⟨hmap, hall⟩ := encodeLoop_ok hl
    refine ⟨?_, ?_, hall⟩
    · rw [← h2]
      show pairs.map (·.1) = _
      rw [hmap, List.map_map]
      rfl
    · rw [← h2]
      show pairs.map (·.2) = _
      rw [hmap, List.map_map]
      rfl

theorem encodeLoop_no_size_error {props : List String} :
    ∀ {l : List PropertyRange}, (∀ r ∈ l, (r.upper - r.lower) + 1 ≤ 0x0FFF) →
    encodeLoop props l ≠ .error .size_too_large := by
  intro l
  induction l with
  | nil => intro _ h; exact Except.noConfusion h
  | cons r rest ih =>
    intro hs h
    have hr := hs r (List.mem_cons_self r rest)
    cases he : encodeRange props r with
    | error e =>
      rw [encodeLoop, he] at h
      have he2 := Except.error.inj h
      subst he2
      simp only [encodeRange] at he
      rw [if_pos hr] at he
      cases hf : props.findIdx? (fun p => p = r.prop) with
      | some i => rw [hf] at he; exact Except.noConfusion he
      | none =>
        rw [hf] at he
        exact EncodeError.noConfusion (Except.error.inj he)
    | ok pr =>
      cases ht : encodeLoop props rest with
      | ok ps =>
        simp only [encodeLoop, he, ht] at h
        exact Except.noConfusion h
      | error e =>
        simp only [encodeLoop, he, ht] at h
        have he2 := Except.error.inj h
        subst he2
        exact ih (fun x hx => hs x (List.mem_cons_of_mem r hx)) ht

/-- Claim C5: size capacity.  Any input range wider than 0x0FFF codepoints
makes `property_ranges_to_table` fail with an error (no table is produced),
and when every range fits in the 12-bit size field the size check never
fires (the only possible failure is a missing property name). -/
theorem property_ranges_to_table_size_capacity (ranges : List PropertyRange)
    (props : List String) :
    ((∃ r ∈ ranges, 0x0FFF < (r.upper - r.lower) + 1) →
      property_ranges_to_table ranges props = Except.error EncodeError.size_too_large ∨
      property_ranges_to_table ranges props = Except.error EncodeError.prop_not_found) ∧
    ((∀ r ∈ ranges, (r.upper - r.lower) + 1 ≤ 0x0FFF) →
      property_ranges_to_table ranges props ≠ Except.error EncodeError.size_too_large) := by
  constructor
  · rintro ⟨r, hr, hbig⟩
    cases hres : property_ranges_to_table ranges props with
    | ok t =>
      exfalso
      have hall := (property_ranges_to_table_ok hres).2.2
      have hmem : r ∈ sortByLower ranges := by
        rw [sortByLower, List.mem_insertionSort]
        exact hr
      have := (hall r hmem).1
      omega
    | error e =>
      cases e with
      | size_too_large => exact Or.inl rfl
      | prop_not_found => exact Or.inr rfl
  · intro hsmall herr
    cases hl : encodeLoop props (sortByLower ranges) with
    | ok pairs => rw [property_ranges_to_table, hl] at herr; exact Except.noConfusion herr
    | error e =>
      simp only [property_ranges_to_table, hl] at herr
      have he := Except.error.inj herr
      subst he
      refine encodeLoop_no_size_error ?_ hl
      intro x hx
      refine hsmall x ?_
      rw [sortByLower, List.mem_insertionSort] at hx
      exact hx

/-- Claim C5 witness: a range of size 4097 is rejected, and a range of size
4095 passes the size check. -/
theorem property_ranges_to_table_size_capacity_witness :
    (property_ranges_to_table [{ lower := 0, upper := 0x1000, prop := "A" }] ["A"] =
        Except.error EncodeError.size_too_large ∨
      property_ranges_to_table [{ lower := 0, upper := 0x1000, prop := "A" }] ["A"] =
        Except.error EncodeError.prop_not_found) ∧
    property_ranges_to_table [{ lower := 0, upper := 0xFFE, prop := "A" }] ["A"] ≠
      Except.error EncodeError.size_too_large := by
  constructor
  · exact (property_ranges_to_table_size_capacity _ _).1
      ⟨{ lower := 0, upper := 0x1000, prop := "A" }, List.mem_singleton_self _, by decide⟩
  · exact (property_ranges_to_table_size_capacity _ _).2
      (fun r hr => by rw [List.mem_singleton] at hr; subst hr; decide)

/-- Claim C2 (code evaluation): the encoder performs no check on the number
of distinct property values.  With seventeen pairwise distinct properties
the pipeline succeeds instead of failing: the seventeenth packed entry is
`1 ||| (16 <<< 12) = 0x10001`, which does not fit in the 16-bit packed
field, so the out-of-range value id is emitted silently. -/
theorem encode_seventeen_props_no_error :
    encodePipeline seventeenRanges = Except.ok (seventeenTable, seventeenProps) ∧
    seventeenProps.length = 17 ∧
    seventeenProps.Nodup ∧
    seventeenTable.props_and_range.getD 16 0 = 0x10001 ∧
    0xFFFF < seventeenTable.props_and_range.getD 16 0 :=
  ⟨by decide, by decide, by decide, by decide, by decide⟩

theorem charListLe_total : ∀ a b : List Char, charListLe a b = true ∨ charListLe b a = true := by
  intro a
  induction a with
  | nil => intro b; exact Or.inl rfl
  | cons x as ih =>
    intro b
    cases b with
    | nil => exact Or.inr rfl
    | cons y bs =>
      rcases lt_trichotomy x y with h | h | h
      · left; rw [charListLe, if_pos h]
      · subst h
        rcases ih bs with hl | hr
        · left; rw [charListLe, if_neg (lt_irrefl x), if_neg (lt_irrefl x)]; exact hl
        · right; rw [charListLe, if_neg (lt_irrefl x), if_neg (lt_irrefl x)]; exact hr
      · right; rw [charListLe, if_pos h]

theorem charListLe_trans :
    ∀ a b c : List Char, charListLe a b = true → charListLe b c = true →
    charListLe a c = true := by
  intro a
  induction a with
  | nil => intro b c _ _; rfl
  | cons x as ih =>
    intro b c hab hbc
    cases b with
    | nil => rw [show charListLe (x :: as) [] = false from rfl] at hab; cases hab
    | cons y bs =>
      cases c with
      | nil => rw [show charListLe (y :: bs) [] = false from rfl] at hbc; cases hbc
      | cons z cs =>
        by_cases hxy : x < y
        · by_cases hyz : y < z
          · rw [charListLe, if_pos (lt_trans hxy hyz)]
          · by_cases hzy : z < y
            · rw [charListLe, if_neg hyz, if_pos hzy] at hbc; cases hbc
            · have hyz2 : y = z := le_antisymm (not_lt.mp hzy) (not_lt.mp hyz)
              subst hyz2
              rw [charListLe, if_pos hxy]
        · by_cases hyx : y < x
          · rw [charListLe, if_neg hxy, if_pos hyx] at hab; cases hab
          · have hxy2 : x = y := le_antisymm (not_lt.mp hyx) (not_lt.mp hxy)
            subst hxy2
            by_cases hxz : x < z
            · rw [charListLe, if_pos hxz]
            · by_cases hzx : z < x
              · rw [charListLe, if_neg hxz, if_pos hzx] at hbc; cases hbc
              · have hxz2 : x = z := le_antisymm (not_lt.mp hzx) (not_lt.mp hxz)
                subst hxz2
                rw [charListLe, if_neg (lt_irrefl x), if_neg (lt_irrefl x)] at hab hbc ⊢
                exact ih bs cs hab hbc

/-- Claim C6: identifier assignment and packing.  The property value set is
exactly the set of distinct property names of the ranges, with no
duplicates, sorted ascending in lexicographic order; each property id is
the index of the name in that sorted list; and on success the emitted
arrays are, for the ranges re-sorted ascending by lower bound,
`lowerBounds[i] = lower` and `packed[i] = size ||| (valueId <<< 12)`. -/
theorem sortedPropertyValues_and_packing (ranges : List PropertyRange) (t : PropertyTable)
    (h : property_ranges_to_table ranges (sortedPropertyValues ranges) = .ok t) :
    List.Sorted stringLe (sortedPropertyValues ranges) ∧
    (sortedPropertyValues ranges).Nodup ∧
    (∀ p, p ∈ sortedPropertyValues ranges ↔ ∃ r ∈ ranges, r.prop = p) ∧
    t.lower_bounds = (sortByLower ranges).map (·.lower) ∧
    t.props_and_range = (sortByLower ranges).map (fun r =>
      ((r.upper - r.lower) + 1) |||
        (((sortedPropertyValues ranges).findIdx (fun p => p = r.prop)) <<< 12)) := by
  refine ⟨?_, ?_, ?_, (property_ranges_to_table_ok h).1, (property_ranges_to_table_ok h).2.1⟩
  · exact @List.sorted_insertionSort String stringLe _
      ⟨fun a b => charListLe_total a.data b.data⟩
      ⟨fun a b c => charListLe_trans a.data b.data c.data⟩ _
  · exact ((List.perm_insertionSort stringLe _).symm).nodup (List.nodup_dedup _)
  · intro p
    rw [sortedPropertyValues, List.mem_insertionSort, List.mem_dedup, List.mem_map]

/-- Claim C6 witness: evaluated on the two-range example of the
specification (`0041..005A ; Alpha`, `005B..007A ; Beta`). -/
theorem sortedPropertyValues_and_packing_witness :
    List.Sorted stringLe (sortedPropertyValues
      [{ lower := 65, upper := 90, prop := "Alpha" },
       { lower := 91, upper := 122, prop := "Beta" }]) ∧
    ({ lower_bounds := [65, 91], props_and_range := [26, 4128] } : PropertyTable).lower_bounds =
      (sortByLower [{ lower := 65, upper := 90, prop := "Alpha" },
        { lower := 91, upper := 122, prop := "Beta" }]).map (·.lower) := by
  have h := sortedPropertyValues_and_packing
    [{ lower := 65, upper := 90, prop := "Alpha" },
     { lower := 91, upper := 122, prop := "Beta" }]
    { lower_bounds := [65, 91], props_and_range := [26, 4128] } (by decide)
  exact ⟨h.1, h.2.2.2.1⟩

/-! ## Compaction preserves the assigned properties -/

theorem gap_rel_of_chain {a : PropertyRange} {l : List PropertyRange}
    (hch : List.Chain' (fun p q => p.upper < q.lower) (a :: l))
    (hv : ∀ r ∈ a :: l, r.lower ≤ r.upper) :
    ∀ b ∈ l, a.upper < b.lower := by
  induction l generalizing a with
  | nil => intro b hb; cases hb
  | cons y ys ih =>
    intro b hb
    rw [List.chain'_cons] at hch
    rcases List.mem_cons.mp hb with rfl | hb2
    · exact hch.1
    · have hy := ih hch.2 (fun r hr => hv r (List.mem_cons_of_mem a hr)) b hb2
      have hvy := hv y (List.mem_cons_of_mem a (List.mem_cons_self y ys))
      have := hch.1
      omega

theorem chain_gap_pairwise : ∀ {l : List PropertyRange},
    List.Chain' (fun p q => p.upper < q.lower) l →
    (∀ r ∈ l, r.lower ≤ r.upper) →
    List.Pairwise (fun a b => a.lower ≤ b.lower) l := by
  intro l
  induction l with
  | nil => intro _ _; exact List.Pairwise.nil
  | cons a l ih =>
    intro hch hv
    refine List.Pairwise.cons ?_ (ih hch.tail (fun r hr => hv r (List.mem_cons_of_mem a hr)))
    intro b hb
    have h1 := gap_rel_of_chain hch hv b hb
    have h2 := hv a (List.mem_cons_self a l)
    omega

theorem compactGo_props (xs : List PropertyRange) :
    ∀ a, a.lower ≤ a.upper → (∀ r ∈ xs, r.lower ≤ r.upper) →
    List.Chain' (fun p q => p.upper < q.lower) (a :: xs) →
    (∀ r ∈ compactGo a xs, r.lower ≤ r.upper) ∧
    List.Chain' (fun p q => p.upper < q.lower) (compactGo a xs) ∧
    (∀ c, ((compactGo a xs).find? (coversB c)).map (·.prop) =
      ((a :: xs).find? (coversB c)).map (·.prop)) := by
  induction xs with
  | nil =>
    intro a hva _ _
    refine ⟨?_, ?_, fun c => rfl⟩
    · intro r hr
      rw [compactGo] at hr
      rw [List.mem_singleton] at hr
      subst hr
      exact hva
    · rw [compactGo]
      exact List.chain'_singleton a
  | cons y ys ih =>
    intro a hva hv hch
    have hvy : y.lower ≤ y.upper := hv y (List.mem_cons_self y ys)
    have hvys : ∀ r ∈ ys, r.lower ≤ r.upper := fun r hr => hv r (List.mem_cons_of_mem y hr)
    rw [List.chain'_cons] at hch
    by_cases hm : a.prop = y.prop ∧ a.upper + 1 = y.lower
    · rw [compactGo, if_pos hm]
      have hva2 : ({ a with upper := y.upper } : PropertyRange).lower ≤
          ({ a with upper := y.upper } : PropertyRange).upper := by
        show a.lower ≤ y.upper
        omega
      have hch2 : List.Chain' (fun p q => p.upper < q.lower)
          ({ a with upper := y.upper } :: ys) := by
        cases ys with
        | nil => exact List.chain'_singleton _
        | cons z zs =>
          rw [List.chain'_cons]
          rw [List.chain'_cons] at hch
          exact ⟨hch.2.1, hch.2.2⟩
      obtain ⟨ho1, ho2, ho3⟩ := ih { a with upper := y.upper } hva2 hvys hch2
      refine ⟨ho1, ho2, fun c => ?_⟩
      rw [ho3 c]
      by_cases hca : coversB c { a with upper := y.upper }
      · rw [List.find?_cons_of_pos _ hca]
        rw [coversB] at hca
        simp only [Bool.and_eq_true, decide_eq_true_eq] at hca
        by_cases hcb : coversB c a
        · rw [List.find?_cons_of_pos _ hcb]
          rfl
        · rw [List.find?_cons_of_neg _ hcb]
          have hcb2 : ¬ (a.lower ≤ c ∧ c ≤ a.upper) := by
            intro hx
            exact hcb (by rw [coversB]; simp only [Bool.and_eq_true, decide_eq_true_eq]; exact hx)
          have hcy : coversB c y = true := by
            rw [coversB]
            simp only [Bool.and_eq_true, decide_eq_true_eq]
            constructor <;> omega
          rw [List.find?_cons_of_pos _ hcy]
          show some a.prop = some y.prop
          rw [hm.1]
      · rw [List.find?_cons_of_neg _ hca]
        rw [coversB] at hca
        simp only [Bool.and_eq_true, decide_eq_true_eq, not_and, not_le] at hca
        have hcb : ¬ (coversB c a = true) := by
          rw [coversB]
          simp only [Bool.and_eq_true, decide_eq_true_eq, not_and, not_le]
          intro hle
          have := hca hle
          omega
        have hcy : ¬ (coversB c y = true) := by
          rw [coversB]
          simp only [Bool.and_eq_true, decide_eq_true_eq, not_and, not_le]
          intro hle
          have := hca (by omega)
          omega
        rw [List.find?_cons_of_neg _ hcb, List.find?_cons_of_neg _ hcy]
    · rw [compactGo, if_neg hm]
      obtain ⟨ho1, ho2, ho3⟩ := ih y hvy hvys hch.2
      obtain ⟨u, t, ht⟩ := compactGo_head ys y
      refine ⟨?_, ?_, fun c => ?_⟩
      · intro r hr
        rcases List.mem_cons.mp hr with rfl | hr2
        · exact hva
        · exact ho1 r hr2
      · rw [ht]
        rw [ht] at ho2
        exact List.Chain'.cons (show a.upper < ({ y with upper := u } : PropertyRange).lower
          from hch.1) ho2
      · by_cases hca : coversB c a
        · rw [List.find?_cons_of_pos _ hca, List.find?_cons_of_pos _ hca]
        · rw [List.find?_cons_of_neg _ hca, List.find?_cons_of_neg _ hca]
          exact ho3 c

/-! ## Decoding the packed field -/

theorem pack_and_fff {s i : Nat} (hs : s < 4096) : (s ||| (i <<< 12)) &&& 0x0FFF = s := by
  apply Nat.eq_of_testBit_eq
  intro k
  rw [Nat.testBit_and, Nat.testBit_or, Nat.testBit_shiftLeft,
    show (0x0FFF : Nat) = 2 ^ 12 - 1 from rfl, Nat.testBit_two_pow_sub_one]
  by_cases hk : k < 12
  · have h12 : ¬ (12 ≤ k) := by omega
    simp [hk, h12]
  · have hsk : s.testBit k = false := by
      apply Nat.testBit_lt_two_pow
      calc s < 4096 := hs
        _ = 2 ^ 12 := by norm_num
        _ ≤ 2 ^ k := Nat.pow_le_pow_right (by omega) (by omega)
    simp [hk, hsk]

theorem pack_shift {s i : Nat} (hs : s < 4096) (hi : i < 16) :
    ((s ||| (i <<< 12)) &&& 0xF000) >>> 12 = i := by
  apply Nat.eq_of_testBit_eq
  intro k
  rw [Nat.testBit_shiftRight, Nat.testBit_and, Nat.testBit_or, Nat.testBit_shiftLeft,
    show (0xF000 : Nat) = 15 <<< 12 from rfl, Nat.testBit_shiftLeft,
    show (15 : Nat) = 2 ^ 4 - 1 from rfl, Nat.testBit_two_pow_sub_one]
  have hsk : s.testBit (12 + k) = false := by
    apply Nat.testBit_lt_two_pow
    calc s < 4096 := hs
      _ = 2 ^ 12 := by norm_num
      _ ≤ 2 ^ (12 + k) := Nat.pow_le_pow_right (by omega) (by omega)
  have h12 : 12 ≤ 12 + k := by omega
  have hsub : 12 + k - 12 = k := by omega
  by_cases hk : k < 4
  · simp [hsk, h12, hsub, hk]
  · have hik : i.testBit k = false := by
      apply Nat.testBit_lt_two_pow
      calc i < 16 := hi
        _ = 2 ^ 4 := by norm_num
        _ ≤ 2 ^ k := Nat.pow_le_pow_right (by omega) (by omega)
    simp [hsk, h12, hsub, hk, hik]

/-! ## Correctness of the binary-search lookup on the emitted table -/

theorem find?_covers_eq_none {cl : List PropertyRange} {c : Nat}
    (h : ∀ r ∈ cl, c < r.lower) : cl.find? (coversB c) = none := by
  rw [List.find?_eq_none]
  intro x hx hc
  rw [coversB, Bool.and_eq_true, decide_eq_true_eq, decide_eq_true_eq] at hc
  have := h x hx
  omega


theorem getPropertyForCodepoint_eq (t : PropertyTable) (c : Nat) :
    getPropertyForCodepoint t c =
      if (t.lower_bounds.takeWhile (fun x => x ≤ c)).length = 0 then 255
      else if c < t.lower_bounds.getD ((t.lower_bounds.takeWhile (fun x => x ≤ c)).length - 1) 0 +
          (t.props_and_range.getD ((t.lower_bounds.takeWhile (fun x => x ≤ c)).length - 1) 0
            &&& 0x0FFF) then
        (t.props_and_range.getD ((t.lower_bounds.takeWhile (fun x => x ≤ c)).length - 1) 0
          &&& 0xF000) >>> 12
      else 255 := rfl

theorem lookup_table (pvs : List String) :
    ∀ (cl : List PropertyRange),
    (∀ r ∈ cl, r.lower ≤ r.upper) →
    List.Chain' (fun p q => p.upper < q.lower) cl →
    (∀ r ∈ cl, (r.upper - r.lower) + 1 ≤ 0x0FFF) →
    (∀ r ∈ cl, pvs.findIdx (fun p => p = r.prop) < 16) →
    ∀ c, getPropertyForCodepoint (tableFor pvs cl) c =
      (match cl.find? (coversB c) with
       | some r => pvs.findIdx (fun p => p = r.prop)
       | none => 255) := by
  intro cl
  induction cl with
  | nil => intro _ _ _ _ c; rfl
  | cons r rest ih =>
    intro hv hch hs hx c
    have hvr : r.lower ≤ r.upper := hv r (List.mem_cons_self r rest)
    have hvrest : ∀ x ∈ rest, x.lower ≤ x.upper :=
      fun x hxm => hv x (List.mem_cons_of_mem r hxm)
    have hlbs : (tableFor pvs (r :: rest)).lower_bounds =
        r.lower :: rest.map (·.lower) := rfl
    by_cases hcr : r.lower ≤ c
    · have htake : (tableFor pvs (r :: rest)).lower_bounds.takeWhile (fun x => x ≤ c) =
          r.lower :: (rest.map (·.lower)).takeWhile (fun x => x ≤ c) := by
        rw [hlbs, List.takeWhile_cons, if_pos (decide_eq_true hcr)]
      set n := ((rest.map (·.lower)).takeWhile (fun x => x ≤ c)).length with hn
      have hlen : ((tableFor pvs (r :: rest)).lower_bounds.takeWhile
          (fun x => x ≤ c)).length = n + 1 := by
        rw [htake, List.length_cons, hn]
      rcases Nat.eq_zero_or_pos n with hn0 | hn1
      · have hrest_gt : ∀ x ∈ rest, c < x.lower := by
          cases rest with
          | nil => intro x hxm; cases hxm
          | cons h t =>
            intro x hxm
            have hhc : ¬ (h.lower ≤ c) := by
              intro hle
              rw [hn, List.map_cons, List.takeWhile_cons, if_pos (decide_eq_true hle),
                List.length_cons] at hn0
              omega
            rcases List.mem_cons.mp hxm with rfl | hxm2
            · omega
            · have hgap := gap_rel_of_chain hch.tail hvrest x hxm2
              have hvh : h.lower ≤ h.upper := hvrest h (List.mem_cons_self h t)
              omega
        rw [getPropertyForCodepoint_eq, hlen, hn0, if_neg (by omega)]
        have e1 : 0 + 1 - 1 = 0 := rfl
        rw [e1]
        have g1 : (tableFor pvs (r :: rest)).lower_bounds.getD 0 0 = r.lower := rfl
        have g2 : (tableFor pvs (r :: rest)).props_and_range.getD 0 0 =
            ((r.upper - r.lower) + 1) ||| ((pvs.findIdx (fun p => p = r.prop)) <<< 12) := rfl
        rw [g1, g2,
          pack_and_fff (by have := hs r (List.mem_cons_self r rest); omega),
          pack_shift (by have := hs r (List.mem_cons_self r rest); omega)
            (hx r (List.mem_cons_self r rest))]
        by_cases hcu : c ≤ r.upper
        · rw [if_pos (by omega)]
          have hcov : coversB c r = true := by
            rw [coversB, Bool.and_eq_true, decide_eq_true_eq, decide_eq_true_eq]
            exact ⟨hcr, hcu⟩
          rw [List.find?_cons_of_pos _ hcov]
        · rw [if_neg (by omega)]
          have hcov : ¬ (coversB c r = true) := by
            rw [coversB, Bool.and_eq_true, decide_eq_true_eq, decide_eq_true_eq]
            intro hx2
            exact hcu hx2.2
          rw [List.find?_cons_of_neg _ hcov, find?_covers_eq_none hrest_gt]
      · obtain ⟨h, t, rfl⟩ : ∃ h t, rest = h :: t := by
          cases rest with
          | nil =>
            rw [hn] at hn1
            exact absurd hn1 (by simp)
          | cons h t => exact ⟨h, t, rfl⟩
        have hstep : getPropertyForCodepoint (tableFor pvs (r :: h :: t)) c =
            getPropertyForCodepoint (tableFor pvs (h :: t)) c := by
          rw [getPropertyForCodepoint_eq, getPropertyForCodepoint_eq, hlen]
          have hlb2 : (tableFor pvs (h :: t)).lower_bounds = (h :: t).map (·.lower) := rfl
          rw [hlb2, ← hn]
          rw [if_neg (show ¬(n + 1 = 0) by omega), if_neg (show ¬(n = 0) by omega)]
          obtain ⟨m, hmeq⟩ : ∃ m, n = m + 1 := ⟨n - 1, by omega⟩
          rw [hmeq]
          have e1 : m + 1 + 1 - 1 = m + 1 := rfl
          have e2 : m + 1 - 1 = m := rfl
          rw [e1, e2]
          have g1 : (tableFor pvs (r :: h :: t)).lower_bounds.getD (m + 1) 0 =
              ((h :: t).map (·.lower)).getD m 0 := rfl
          have g2 : (tableFor pvs (r :: h :: t)).props_and_range.getD (m + 1) 0 =
              (tableFor pvs (h :: t)).props_and_range.getD m 0 := rfl
          rw [g1, g2]
        rw [hstep, ih hvrest hch.tail
          (fun x hxm => hs x (List.mem_cons_of_mem r hxm))
          (fun x hxm => hx x (List.mem_cons_of_mem r hxm)) c]
        have hhc : h.lower ≤ c := by
          by_contra hle
          rw [hn, List.map_cons, List.takeWhile_cons, if_neg (by simpa using hle),
            List.length_nil] at hn1
          omega
        have hcov : ¬ (coversB c r = true) := by
          rw [coversB, Bool.and_eq_true, decide_eq_true_eq, decide_eq_true_eq]
          rintro ⟨-, hcu⟩
          rw [List.chain'_cons] at hch
          have := hch.1
          omega
        rw [List.find?_cons_of_neg _ hcov]
    · have htake : ((tableFor pvs (r :: rest)).lower_bounds.takeWhile
          (fun x => x ≤ c)).length = 0 := by
        rw [hlbs, List.takeWhile_cons, if_neg (by simpa using hcr)]
        rfl
      rw [getPropertyForCodepoint_eq, htake, if_pos rfl]
      have hall : ∀ x ∈ r :: rest, c < x.lower := by
        intro x hxm
        rcases List.mem_cons.mp hxm with rfl | hxm2
        · omega
        · have := gap_rel_of_chain hch hv x hxm2
          omega
      rw [find?_covers_eq_none hall]

theorem compact_props (ranges : List PropertyRange)
    (hv : ∀ r ∈ ranges, r.lower ≤ r.upper)
    (hch : List.Chain' (fun p q => p.upper < q.lower) ranges) :
    (∀ r ∈ compact_property_ranges ranges, r.lower ≤ r.upper) ∧
    List.Chain' (fun p q => p.upper < q.lower) (compact_property_ranges ranges) ∧
    (∀ c, assignedProperty (compact_property_ranges ranges) c = assignedProperty ranges c) := by
  cases ranges with
  | nil =>
    refine ⟨?_, ?_, fun c => rfl⟩
    · intro r hr
      rw [compact_nil] at hr
      cases hr
    · rw [compact_nil]
      exact List.chain'_nil
  | cons x xs =>
    rw [compact_eq_go]
    exact compactGo_props xs x (hv x (List.mem_cons_self x xs))
      (fun r hr => hv r (List.mem_cons_of_mem x hr)) hch

theorem encodePipeline_ok {ranges : List PropertyRange} {t : PropertyTable} {pvs : List String}
    (h : encodePipeline ranges = .ok (t, pvs)) :
    pvs = sortedPropertyValues (compact_property_ranges ranges) ∧
    property_ranges_to_table (compact_property_ranges ranges) pvs = .ok t := by
  cases hp : property_ranges_to_table (compact_property_ranges ranges)
      (sortedPropertyValues (compact_property_ranges ranges)) with
  | error e => rw [encodePipeline, hp] at h; exact Except.noConfusion h
  | ok t0 =>
    simp only [encodePipeline, hp] at h
    have h2 := Except.ok.inj h
    rw [Prod.mk.injEq] at h2
    obtain ⟨rfl, rfl⟩ := h2
    exact ⟨rfl, hp⟩

/-- Claim C1 (amended): round trip through the whole pipeline.  For every
codepoint, if the original parsed range list consists of valid ranges,
is sorted ascending by lower bound and pairwise disjoint, the pipeline
succeeds, and — the amendment forced by the counterexample — the table
uses at most 16 distinct property values, then looking the codepoint up in
the encoded table returns the id of the property value the original range
list assigns to it (the name at that id is the assigned property), and
returns the sentinel 255 exactly when no original range covers it. -/
theorem encode_lookup_roundtrip (ranges : List PropertyRange) (t : PropertyTable)
    (pvs : List String)
    (hvalid : ∀ r ∈ ranges, r.lower ≤ r.upper)
    (hsorted : List.Pairwise (fun a b => a.upper < b.lower) ranges)
    (hok : encodePipeline ranges = Except.ok (t, pvs))
    (hcount : pvs.length ≤ 16)
    (c : Nat) (_hc : c ≤ 0x10FFFF) :
    (match assignedProperty ranges c with
     | some p => pvs[getPropertyForCodepoint t c]? = some p ∧
         getPropertyForCodepoint t c ≠ 255
     | none => getPropertyForCodepoint t c = 255) := by
  obtain ⟨hpvs, htab⟩ := encodePipeline_ok hok
  obtain ⟨hv2, hch2, hassign⟩ := compact_props ranges hvalid hsorted.chain'
  obtain ⟨hl1, hl2, hall⟩ := property_ranges_to_table_ok htab
  have hsorteq : sortByLower (compact_property_ranges ranges) =
      compact_property_ranges ranges := by
    rw [sortByLower]
    exact List.Sorted.insertionSort_eq (chain_gap_pairwise hch2 hv2)
  rw [hsorteq] at hl1 hl2 hall
  have hidx16 : ∀ r ∈ compact_property_ranges ranges,
      pvs.findIdx (fun p => p = r.prop) < 16 := by
    intro r hr
    have := (List.findIdx?_eq_some_iff_findIdx_eq.mp ((hall r hr).2)).1
    omega
  have hsize : ∀ r ∈ compact_property_ranges ranges,
      (r.upper - r.lower) + 1 ≤ 0x0FFF := fun r hr => (hall r hr).1
  have ht : t = tableFor pvs (compact_property_ranges ranges) := by
    obtain ⟨lbs, prs⟩ := t
    simp only [tableFor, PropertyTable.mk.injEq]
    exact ⟨hl1, hl2⟩
  have hmain := lookup_table pvs (compact_property_ranges ranges) hv2 hch2 hsize hidx16 c
  cases hfind : (compact_property_ranges ranges).find? (coversB c) with
  | none =>
    have hassign2 : assignedProperty ranges c = none := by
      rw [← hassign c, assignedProperty, hfind]
      rfl
    rw [hassign2]
    show getPropertyForCodepoint t c = 255
    rw [ht, hmain, hfind]
  | some r =>
    have hassign2 : assignedProperty ranges c = some r.prop := by
      rw [← hassign c, assignedProperty, hfind]
      rfl
    rw [hassign2]
    show pvs[getPropertyForCodepoint t c]? = some r.prop ∧
      getPropertyForCodepoint t c ≠ 255
    have hmem : r ∈ compact_property_ranges ranges := List.mem_of_find?_eq_some hfind
    have hlook : getPropertyForCodepoint t c = pvs.findIdx (fun p => p = r.prop) := by
      rw [ht, hmain, hfind]
    rw [hlook]
    constructor
    · have h2 := (hall r hmem).2
      rw [List.findIdx?_eq_some_iff_getElem] at h2
      obtain ⟨hlt2, hp2, -⟩ := h2
      rw [List.getElem?_eq_some_iff]
      refine ⟨hlt2, ?_⟩
      simpa using hp2
    · have := hidx16 r hmem
      omega

/-- Claim C1 counterexample: with seventeen distinct property values the
hypotheses of the claim as stated (valid, sorted-ascending, pairwise
disjoint parsed ranges) hold and the pipeline succeeds, yet looking up
codepoint 16 returns value id 0 (property name A) instead of the property
Q assigned by the original range list, and not the sentinel either: the
seventeenth id overflows the 4-bit field and wraps silently. -/
theorem roundtrip_fails_with_seventeen_props :
    (seventeenRanges.all (fun r => r.lower ≤ r.upper) = true) ∧
    List.Pairwise (fun a b => a.upper < b.lower) seventeenRanges ∧
    encodePipeline seventeenRanges = Except.ok (seventeenTable, seventeenProps) ∧
    (16 : Nat) ≤ 0x10FFFF ∧
    assignedProperty seventeenRanges 16 = some "Q" ∧
    getPropertyForCodepoint seventeenTable 16 = 0 ∧
    seventeenProps[getPropertyForCodepoint seventeenTable 16]? = some "A" ∧
    ¬ (seventeenProps[getPropertyForCodepoint seventeenTable 16]? = some "Q") ∧
    getPropertyForCodepoint seventeenTable 16 ≠ 255 := by
  exact ⟨by decide, by decide, by decide, by decide, by decide, by decide, by decide,
    by decide, by decide⟩

/-- Claim C1 witness: the round trip evaluated on the specification's
two-range example at codepoint 0x41. -/
theorem encode_lookup_roundtrip_witness :
    (["Alpha", "Beta"] : List String)[getPropertyForCodepoint
      { lower_bounds := [65, 91], props_and_range := [26, 4128] } 65]? = some "Alpha" ∧
    getPropertyForCodepoint
      { lower_bounds := [65, 91], props_and_range := [26, 4128] } 65 ≠ 255 :=
  encode_lookup_roundtrip
    [{ lower := 65, upper := 90, prop := "Alpha" },
     { lower := 91, upper := 122, prop := "Beta" }]
    { lower_bounds := [65, 91], props_and_range := [26, 4128] }
    ["Alpha", "Beta"]
    (by decide) (by decide) (by decide) (by decide) 65 (by decide)

end UcdGen
